import Mathlib

/-!
Verification of the scheduling core of `final_project`:
the `SchedulerTool` assignment engine and the validator tools
(`ClassNumberCheckerTool`, `UniqueAttendanceCheckerTool`,
`ClassAttendanceCheckerTool`, `ScheduleValidatorTool`,
`ClassCounterCheckerTool`, `PeriodConflictCheckerTool`,
`OutputValidatorTool`), shallowly embedded from
`final_project/final_project_tools/*.py`.
-/

namespace FinalProject

/-- dict.get(key, default) on an association list (Python dicts are modelled
as association lists in insertion order; keys are unique in actual dicts). -/
def aget {α : Type} (l : List (String × α)) (k : String) (dflt : α) : α :=
  match l.find? (fun p => p.1 == k) with
  | some p => p.2
  | none => dflt

/-- A schedule entry as the validator tools read it from JSON: the optional
"class" and "period" fields of an entry object (`entry.get("class")`,
`entry.get("period")`); a missing field reads as `none`. -/
structure CEntry where
  className : Option String
  period : Option Int
deriving Repr, DecidableEq

/-- A student's value in the parsed schedule JSON: day key to entry list. -/
abbrev DayListC := List (String × List CEntry)

/-- The parsed schedule JSON: student to day map. -/
abbrev CheckerSchedule := List (String × DayListC)

/-! ## ClassNumberCheckerTool (checkers.py lines 5-24) -/

/-- Report returned by `ClassNumberCheckerTool.use`. -/
structure CNReport where
  valid : Bool
  invalid_students : List String
  error : Option String
deriving Repr, DecidableEq

/-- Core of `ClassNumberCheckerTool.use` after a successful parse:
collects students whose `len(days.get("Day1", [])) + len(days.get("Day2", []))`
differs from the literal constant 5. -/
def classNumberCore (schedule : CheckerSchedule) : CNReport :=
  let invalid := (schedule.filter (fun p =>
      (aget p.2 "Day1" []).length + (aget p.2 "Day2" []).length != 5)).map (·.1)
  ⟨invalid.isEmpty, invalid, none⟩

/-- `ClassNumberCheckerTool.use`: the JSON decode step either yields the parsed
schedule or a decode error message, caught and turned into an error report. -/
def classNumberUse (input : Except String CheckerSchedule) : CNReport :=
  match input with
  | .error e => ⟨false, [], some ("JSON parsing error: " ++ e)⟩
  | .ok schedule => classNumberCore schedule

/-- Reading of the spec's total-count check: every student's entry count summed
across all days of the allocation equals `classes_per_student`. Stated from the
spec's words, to be compared with `classNumberCore`. -/
def specTotalCountOK (schedule : CheckerSchedule) (classes_per_student : Nat) : Bool :=
  schedule.all (fun p =>
    (p.2.foldr (fun q acc => q.2.length + acc) 0) == classes_per_student)

/-! ## UniqueAttendanceCheckerTool (checkers.py lines 28-48) -/

/-- `entry.get("class", entry) if isinstance(entry, dict) else entry`: an entry
with a "class" field contributes that name, otherwise the entry object itself. -/
def entryKey (e : CEntry) : String ⊕ CEntry :=
  match e.className with
  | some c => .inl c
  | none => .inr e

/-- Report returned by `UniqueAttendanceCheckerTool.use`. -/
structure UAReport where
  valid : Bool
  invalid_students : List String
  error : Option String
deriving Repr, DecidableEq

/-- Core of `UniqueAttendanceCheckerTool.use` after a successful parse:
a student is invalid when the Day1 and Day2 class keys contain a duplicate
(`len(all_classes) != len(set(all_classes))`). -/
def uniqueAttendanceCore (schedule : CheckerSchedule) : UAReport :=
  let invalid := (schedule.filter (fun p =>
      let ks := ((aget p.2 "Day1" []) ++ (aget p.2 "Day2" [])).map entryKey
      ks.length != ks.dedup.length)).map (·.1)
  ⟨invalid.isEmpty, invalid, none⟩

/-- `UniqueAttendanceCheckerTool.use` with its parse-failure branch. -/
def uniqueAttendanceUse (input : Except String CheckerSchedule) : UAReport :=
  match input with
  | .error e => ⟨false, [], some ("JSON parsing error: " ++ e)⟩
  | .ok schedule => uniqueAttendanceCore schedule

/-! ## ClassAttendanceCheckerTool (checkers.py lines 52-87) -/

/-- A catalog value in the checkers' JSON: either the old format (a bare
capacity number) or the new format (an object whose "capacity" field may be
absent). -/
inductive JClassInfo where
  | intCap : Int → JClassInfo
  | dictCap : Option Int → JClassInfo
deriving Repr, DecidableEq

/-- Parsed `class_data` as the checkers read it. -/
abbrev CatalogC := List (String × List (String × JClassInfo))

/-- `max_allowed` extraction: `class_info.get("capacity")` for the dict format,
the number itself for the old format. -/
def maxAllowed (i : JClassInfo) : Option Int :=
  match i with
  | .intCap n => some n
  | .dictCap c => c

/-- Increment of the `counts` dict keyed by (day, class key); a new key is
appended in insertion order like a Python dict. -/
def cinc (counts : List ((String × (String ⊕ CEntry)) × Nat))
    (k : String × (String ⊕ CEntry)) :
    List ((String × (String ⊕ CEntry)) × Nat) :=
  match counts with
  | [] => [(k, 1)]
  | (k', n) :: rest => if k' = k then (k', n + 1) :: rest else (k', n) :: cinc rest k

/-- Report returned by `ClassAttendanceCheckerTool.use`. -/
structure CAReport where
  valid : Bool
  exceeded_classes : List (String × (String ⊕ CEntry) × Nat × Int)
  error : Option String
deriving Repr, DecidableEq

/-- Core of `ClassAttendanceCheckerTool.use` after a successful parse: counts
assignments per (day, class key) over all students, then reports the keys whose
count exceeds the declared capacity (keys without a catalog entry are skipped). -/
def classAttendanceCore (schedule : CheckerSchedule) (class_data : CatalogC) :
    CAReport :=
  let counts := schedule.foldl (fun acc p =>
    p.2.foldl (fun acc2 q =>
      q.2.foldl (fun acc3 e => cinc acc3 (q.1, entryKey e)) acc2) acc) []
  let exceeded := counts.foldr (fun c acc =>
    match c.1.2 with
    | .inl clsName =>
      match (aget class_data c.1.1 []).find? (fun q => q.1 == clsName) with
      | some q =>
        match maxAllowed q.2 with
        | some m => if (c.2 : Int) > m then (c.1.1, c.1.2, c.2, m) :: acc else acc
        | none => acc
      | none => acc
    | .inr _ => acc) []
  ⟨exceeded.isEmpty, exceeded, none⟩

/-- `ClassAttendanceCheckerTool.use` with its parse-failure branch. -/
def classAttendanceUse (input : Except String (CheckerSchedule × CatalogC)) :
    CAReport :=
  match input with
  | .error e => ⟨false, [], some ("JSON parsing error: " ++ e)⟩
  | .ok data => classAttendanceCore data.1 data.2

/-! ## ScheduleValidatorTool (checkers.py lines 91-109) -/

/-- Report returned by `ScheduleValidatorTool.use`. -/
structure SVReport where
  valid : Bool
  invalid_days : List String
  error : Option String
deriving Repr, DecidableEq

/-- Core of `ScheduleValidatorTool.use` after a successful parse: a day is
invalid when it does not offer exactly 6 classes. -/
def scheduleValidatorCore (class_data : CatalogC) : SVReport :=
  let invalid := (class_data.filter (fun p => p.2.length != 6)).map (·.1)
  ⟨invalid.isEmpty, invalid, none⟩

/-- `ScheduleValidatorTool.use` with its parse-failure branch. -/
def scheduleValidatorUse (input : Except String CatalogC) : SVReport :=
  match input with
  | .error e => ⟨false, [], some ("JSON parsing error: " ++ e)⟩
  | .ok class_data => scheduleValidatorCore class_data

/-! ## ClassCounterCheckerTool (checkers.py lines 113-139) -/

/-- Report returned by `ClassCounterCheckerTool.use`. -/
structure CCReport where
  valid : Bool
  invalid_entries : List (String × String × (String ⊕ CEntry))
  error : Option String
deriving Repr, DecidableEq

/-- Core of `ClassCounterCheckerTool.use` after a successful parse: flags every
(student, day, class key) whose class key is not offered on any day (an entry
object without a "class" field can never equal an offered name). -/
def classCounterCore (schedule : CheckerSchedule) (class_data : CatalogC) :
    CCReport :=
  let all_offered := class_data.foldr (fun p acc => p.2.map (·.1) ++ acc) []
  let invalid := schedule.foldr (fun p acc =>
    p.2.foldr (fun q acc2 =>
      q.2.foldr (fun e acc3 =>
        match entryKey e with
        | .inl c => if all_offered.contains c then acc3 else (p.1, q.1, .inl c) :: acc3
        | .inr e' => (p.1, q.1, .inr e') :: acc3) acc2) acc) []
  ⟨invalid.isEmpty, invalid, none⟩

/-- `ClassCounterCheckerTool.use` with its parse-failure branch. -/
def classCounterUse (input : Except String (CheckerSchedule × CatalogC)) :
    CCReport :=
  match input with
  | .error e => ⟨false, [], some ("JSON parsing error: " ++ e)⟩
  | .ok data => classCounterCore data.1 data.2

/-! ## PeriodConflictCheckerTool (period_validator.py) -/

/-- One conflict record produced by `PeriodConflictCheckerTool`. -/
structure Conflict where
  student : String
  day : String
  period : Option Int
  classes : List (Option String)
deriving Repr, DecidableEq

/-- The per-day scan of `PeriodConflictCheckerTool.use`: walks the entry list,
keeping the first class seen for each period value in `pd` (the
`day1_periods` / `day2_periods` dict) and appending a conflict for every
later entry that repeats a period value. -/
def periodScan (student day : String) (entries : List CEntry)
    (pd : List (Option Int × Option String)) : List Conflict :=
  match entries with
  | [] => []
  | e :: rest =>
    match pd.find? (fun q => q.1 == e.period) with
    | some q =>
        ⟨student, day, e.period, [q.2, e.className]⟩ :: periodScan student day rest pd
    | none => periodScan student day rest ((e.period, e.className) :: pd)

/-- Report returned by `PeriodConflictCheckerTool.use`. -/
structure PCReport where
  valid : Bool
  conflicts : List Conflict
  total_conflicts : Option Nat
  error : Option String
deriving Repr, DecidableEq

/-- Core of `PeriodConflictCheckerTool.use` after a successful parse: scans
each student's "Day1" then "Day2" lists for repeated period values. -/
def periodConflictCore (schedule : CheckerSchedule) : PCReport :=
  let conflicts := schedule.foldr (fun p acc =>
    periodScan p.1 "Day1" (aget p.2 "Day1" []) []
      ++ periodScan p.1 "Day2" (aget p.2 "Day2" []) [] ++ acc) []
  ⟨conflicts.isEmpty, conflicts, some conflicts.length, none⟩

/-- `PeriodConflictCheckerTool.use` with its parse-failure branch. -/
def periodConflictUse (input : Except String CheckerSchedule) : PCReport :=
  match input with
  | .error e => ⟨false, [], none, some ("JSON parsing error: " ++ e)⟩
  | .ok schedule => periodConflictCore schedule

/-! ## OutputValidatorTool (output_validator.py) -/

/-- Python `pat in s` substring test. -/
def containsSub (s pat : String) : Bool :=
  s.toList.tails.any (fun t => pat.toList.isPrefixOf t)

/-- Python `round(q, 1)` on the score, modelled in exact rationals (the score
arithmetic never lands on an exact half tenth, so the rounding mode is
irrelevant). -/
def roundTenth (q : ℚ) : ℚ :=
  (round (q * 10) : ℤ) / 10

/-- Report returned by `OutputValidatorTool.use`; `clarity_score` is the float
score modelled as an exact rational. -/
structure ClarityReport where
  valid : Bool
  clarity_score : ℚ
  summary : String
  issues : List String
  suggestions : List String
  student_count : Nat
  total_classes : Nat
  formatted_output_length : Nat
deriving Repr, DecidableEq

/-- Core of `OutputValidatorTool.use` after input handling: the expected
student/class/day counts come from `system_config.json` (or its built-in
defaults), `schedule` is the parsed schedule and `formatted_output` the
rendered table text. Follows the six checks of the source in order. -/
def outputValidatorCore (expected_students expected_classes expected_days : Nat)
    (schedule : CheckerSchedule) (formatted_output : String) : ClarityReport :=
  let day_keys := (List.range expected_days).map (fun i => "Day" ++ toString (i + 1))
  let issues1 : List String :=
    if schedule.length != expected_students then
      ["Expected " ++ toString expected_students ++ " students, found "
        ++ toString schedule.length]
    else []
  let issues2 : List String := schedule.foldr (fun p acc =>
    (day_keys.foldr (fun dk acc2 =>
      match p.2.find? (fun q => q.1 == dk) with
      | none => (p.1 ++ " is missing " ++ dk ++ " information") :: acc2
      | some q =>
        if q.2.isEmpty then (p.1 ++ " has empty classes for " ++ dk) :: acc2
        else acc2) []) ++ acc) []
  let tooShort := formatted_output == "" || formatted_output.length < 100
  let issues3 : List String :=
    if tooShort then ["Formatted output is missing or too short"] else []
  let sugg3 : List String :=
    if tooShort then ["Ensure the table includes headers and all student rows"] else []
  let issues4 : List String :=
    if formatted_output != "" then
      (if !containsSub formatted_output "Student" then
        ["Formatted output missing 'Student' column header"] else [])
      ++ (if !containsSub formatted_output "Day 1" && !containsSub formatted_output "Day1"
          then ["Formatted output missing Day 1 information"] else [])
      ++ (if !containsSub formatted_output "Day 2" && !containsSub formatted_output "Day2"
          then ["Formatted output missing Day 2 information"] else [])
    else []
  let sugg4 : List String :=
    if formatted_output != ""
        && !(containsSub formatted_output "+" || containsSub formatted_output "|"
              || containsSub formatted_output "─") then
      ["Consider using a table format for better readability"]
    else []
  let studentClasses := fun (dl : DayListC) =>
    day_keys.foldr (fun dk a => (aget dl dk []).length + a) 0
  let issues5 : List String := schedule.foldr (fun p acc =>
    (if studentClasses p.2 != expected_classes then
      [p.1 ++ " has " ++ toString (studentClasses p.2) ++ " classes instead of "
        ++ toString expected_classes]
    else []) ++ acc) []
  let total_classes := schedule.foldr (fun p acc => studentClasses p.2 + acc) 0
  let sugg6 : List String :=
    if formatted_output != "" && !containsSub formatted_output "(P" then
      ["Consider showing period information for better clarity"]
    else []
  let issues := issues1 ++ issues2 ++ issues3 ++ issues4 ++ issues5
  let suggestions0 := sugg3 ++ sugg4 ++ sugg6
  let score : ℚ := max 0 (100 - (issues.length : ℚ) * (100 / 15))
  let summary :=
    if score ≥ 90 then "✅ Output is clear, complete, and easy to understand!"
    else if score ≥ 70 then "⚠️ Output is acceptable but could be improved"
    else "❌ Output has significant clarity or completeness issues"
  let suggestions :=
    if score < 100 && suggestions0.isEmpty then
      ["Review the output to ensure all information is clearly presented"]
    else suggestions0
  ⟨issues.isEmpty, roundTenth score, summary, issues, suggestions,
    schedule.length, total_classes, formatted_output.length⟩

/-! ## SchedulerTool (scheduler.py)

The scheduler is randomized (`random.choice`, `random.shuffle`).  The random
source is modelled as an explicit stream of natural numbers: every random
event consumes the head of the stream and reduces it modulo the number of
alternatives (an exhausted stream keeps yielding 0, still a legal outcome of
the corresponding `random` call).  All invariant theorems quantify over every
stream, hence over every possible run. -/

/-- One entry appended by the scheduler: `{"class": ..., "period": ...}`. -/
structure SEntry where
  className : String
  period : Int
deriving Repr, DecidableEq

/-- One catalog value: `{"capacity": ..., "periods": [...]}`. -/
structure SClassInfo where
  capacity : Int
  periods : List Int
deriving Repr, DecidableEq

/-- Parsed `class_data`: day to (class name to info), in insertion order. -/
abbrev SCatalog := List (String × List (String × SClassInfo))

/-- The fields of `system_config.json` the scheduler reads. -/
structure SConfig where
  num_students : Nat
  classes_per_student : Nat
  num_days : Nat
  min_classes_per_day : Nat
deriving Repr, DecidableEq

/-- A student's schedule value: day to entry list, in day order. -/
abbrev DayMap := List (String × List SEntry)

/-- The mutable `capacity_tracker` dict, as a total map with the `get`
default 0 for keys it does not hold. -/
abbrev CapMap := (String × String) → Int

/-- Pointwise update of the capacity tracker. -/
def cupd (cap : CapMap) (k : String × String) (v : Int) : CapMap :=
  fun k' => if k' = k then v else cap k'

/-- Initialization of `capacity_tracker` from the catalog (scheduler.py lines
59-64); later occurrences of a key overwrite earlier ones like dict stores. -/
def capInit (catalog : SCatalog) : CapMap :=
  catalog.foldl (fun cap p =>
    p.2.foldl (fun cap2 q => cupd cap2 (p.1, q.1) q.2.capacity) cap)
    (fun _ => 0)

/-- Consume the head of the random stream. -/
def rnext : List Nat → Nat × List Nat
  | [] => (0, [])
  | n :: r => (n, r)

/-- `random.shuffle`, as a selection shuffle driven by the stream: repeatedly
extract the element at a stream-chosen index.  The fuel argument equals the
list length at every call, so the fuel never runs out and the recursion is
structural. -/
def rshuffleAux : Nat → List String → List Nat → List String × List Nat
  | 0, _, r => ([], r)
  | _ + 1, [], r => ([], r)
  | fuel + 1, a :: as, r =>
    let nr := rnext r
    let i := nr.1 % (a :: as).length
    let x := (a :: as).getD i a
    let rest := rshuffleAux fuel ((a :: as).eraseIdx i) nr.2
    (x :: rest.1, rest.2)

/-- `random.shuffle(classes_list)` (scheduler.py line 94). -/
def rshuffle (l : List String) (r : List Nat) : List String × List Nat :=
  rshuffleAux l.length l r

/-- `day_targets[random_day] += 1` (scheduler.py line 85): increment the value
of the first matching key. -/
def tinc (t : List (String × Nat)) (day : String) : List (String × Nat) :=
  match t with
  | [] => []
  | (d, n) :: rest => if d == day then (d, n + 1) :: rest else (d, n) :: tinc rest day

/-- The random distribution loop (scheduler.py lines 83-85): `remaining` times,
pick a uniformly random day and increment its target.  `random.choice` on an
empty day list raises `IndexError`, modelled as `none`. -/
def distributeRemaining (days : List String) (remaining : Nat)
    (targets : List (String × Nat)) (r : List Nat) :
    Option (List (String × Nat) × List Nat) :=
  match remaining with
  | 0 => some (targets, r)
  | m + 1 =>
    match days with
    | [] => none
    | a :: as =>
      let nr := rnext r
      let day := (a :: as).getD (nr.1 % (a :: as).length) a
      distributeRemaining (a :: as) m (tinc targets day) nr.2

/-- The day-target distribution step (scheduler.py lines 78-85): every day
starts at `min_classes_per_day`; `remaining_classes` is
`classes_per_student - min_per_day * len(days)` (a negative value makes the
loop run zero times, like `range` of a negative number). -/
def dayTargets (days : List String) (cfg : SConfig) (r : List Nat) :
    Option (List (String × Nat) × List Nat) :=
  distributeRemaining days
    (cfg.classes_per_student - cfg.min_classes_per_day * days.length)
    (days.map (fun d => (d, cfg.min_classes_per_day))) r

/-- Append an entry to the first slot of the student's day map whose key is
`day` (`schedule[student][day].append(...)`). -/
def dmAppend (dm : DayMap) (day : String) (e : SEntry) : DayMap :=
  match dm with
  | [] => []
  | (d, es) :: rest =>
    if d == day then (d, es ++ [e]) :: rest else (d, es) :: dmAppend rest day e

/-- The per-day scan (scheduler.py lines 96-120): walk the shuffled class list
once; stop when the day's target is reached; skip classes already assigned to
the student, classes without remaining capacity, and classes whose allowed
periods are all occupied for the student that day; otherwise pick a random
free period, append the entry, record the class and decrement the capacity.
The class lookup never misses since the shuffled names are the day's keys. -/
def scanClasses (dayClasses : List (String × SClassInfo)) (day : String)
    (target : Nat) (shuffled : List String) (dm : DayMap)
    (assigned : List String) (cap : CapMap) (r : List Nat) :
    DayMap × List String × CapMap × List Nat :=
  match shuffled with
  | [] => (dm, assigned, cap, r)
  | cls :: rest =>
    if (aget dm day []).length ≥ target then (dm, assigned, cap, r)
    else if assigned.contains cls then
      scanClasses dayClasses day target rest dm assigned cap r
    else if cap (day, cls) ≤ 0 then
      scanClasses dayClasses day target rest dm assigned cap r
    else
      match dayClasses.find? (fun q => q.1 == cls) with
      | none => scanClasses dayClasses day target rest dm assigned cap r
      | some q =>
        let used := (aget dm day []).map (·.period)
        match q.2.periods.filter (fun p => !used.contains p) with
        | [] => scanClasses dayClasses day target rest dm assigned cap r
        | a :: as =>
          let nr := rnext r
          let p := (a :: as).getD (nr.1 % (a :: as).length) a
          scanClasses dayClasses day target rest (dmAppend dm day ⟨cls, p⟩)
            (cls :: assigned) (cupd cap (day, cls) (cap (day, cls) - 1)) nr.2

/-- The day loop of a student (scheduler.py lines 88-120): for each day, skip
it when the catalog lacks it (`if day not in class_data: continue`), else
shuffle its class names and scan them once against that day's target. -/
def daysLoop (catalog : SCatalog) (targets : List (String × Nat))
    (days : List String) (dm : DayMap) (assigned : List String) (cap : CapMap)
    (r : List Nat) : DayMap × List String × CapMap × List Nat :=
  match days with
  | [] => (dm, assigned, cap, r)
  | day :: rest =>
    match catalog.find? (fun p => p.1 == day) with
    | none => daysLoop catalog targets rest dm assigned cap r
    | some p =>
      let sh := rshuffle (p.2.map (·.1)) r
      let st := scanClasses p.2 day (aget targets day 0) sh.1 dm assigned cap sh.2
      daysLoop catalog targets rest st.1 st.2.1 st.2.2.1 st.2.2.2

/-- The inner class scan of the fallback pass (scheduler.py lines 132-153):
find the first class of the day (in catalog order, not shuffled) that is
unassigned, has capacity and a free period; `some` of the updated state when
an assignment is made (`added = True` plus the inner `break`), `none`
otherwise. -/
def fillScanClasses (dayClasses : List (String × SClassInfo)) (day : String)
    (names : List String) (dm : DayMap) (assigned : List String) (cap : CapMap)
    (r : List Nat) : Option (DayMap × List String × CapMap × List Nat) :=
  match names with
  | [] => none
  | cls :: rest =>
    if assigned.contains cls then
      fillScanClasses dayClasses day rest dm assigned cap r
    else if cap (day, cls) ≤ 0 then
      fillScanClasses dayClasses day rest dm assigned cap r
    else
      match dayClasses.find? (fun q => q.1 == cls) with
      | none => fillScanClasses dayClasses day rest dm assigned cap r
      | some q =>
        let used := (aget dm day []).map (·.period)
        match q.2.periods.filter (fun p => !used.contains p) with
        | [] => fillScanClasses dayClasses day rest dm assigned cap r
        | a :: as =>
          let nr := rnext r
          let p := (a :: as).getD (nr.1 % (a :: as).length) a
          some (dmAppend dm day ⟨cls, p⟩, cls :: assigned,
            cupd cap (day, cls) (cap (day, cls) - 1), nr.2)

/-- One sweep of the fallback pass over the days (scheduler.py lines 126-155):
skip days absent from the catalog, stop the sweep once the total reaches
`classes_per_student` (the `break` leaves `added` false), and return the first
successful assignment. -/
def fillScanDays (catalog : SCatalog) (cps total : Nat) (days : List String)
    (dm : DayMap) (assigned : List String) (cap : CapMap) (r : List Nat) :
    Option (DayMap × List String × CapMap × List Nat) :=
  match days with
  | [] => none
  | day :: rest =>
    match catalog.find? (fun p => p.1 == day) with
    | none => fillScanDays catalog cps total rest dm assigned cap r
    | some p =>
      if total ≥ cps then none
      else
        match fillScanClasses p.2 day (p.2.map (·.1)) dm assigned cap r with
        | some st => some st
        | none => fillScanDays catalog cps total rest dm assigned cap r

/-- The fallback `while` loop (scheduler.py lines 124-159): while the total is
short of `classes_per_student`, run one sweep; stop when a sweep adds nothing.
Every continuing iteration raises the total by one, so `classes_per_student`
units of fuel are enough for the loop to reach its exit condition; at fuel 0
the exit condition already holds and the result equals the loop's. -/
def fillLoop (catalog : SCatalog) (days : List String) (cps fuel total : Nat)
    (dm : DayMap) (assigned : List String) (cap : CapMap) (r : List Nat) :
    DayMap × List String × CapMap × List Nat :=
  match fuel with
  | 0 => (dm, assigned, cap, r)
  | fuel + 1 =>
    if total < cps then
      match fillScanDays catalog cps total days dm assigned cap r with
      | some st =>
        fillLoop catalog days cps fuel (total + 1) st.1 st.2.1 st.2.2.1 st.2.2.2
      | none => (dm, assigned, cap, r)
    else (dm, assigned, cap, r)

/-- Processing of one student (scheduler.py lines 67-159): empty day slots,
day-target distribution, the per-day scans, then the fallback pass starting
from the recomputed total. -/
def processStudent (catalog : SCatalog) (days : List String) (cfg : SConfig)
    (cap : CapMap) (r : List Nat) : Option (DayMap × CapMap × List Nat) :=
  let dm0 : DayMap := days.map (fun d => (d, []))
  match dayTargets days cfg r with
  | none => none
  | some tr =>
    let st1 := daysLoop catalog tr.1 days dm0 [] cap tr.2
    let total1 := days.foldr (fun d a => (aget st1.1 d []).length + a) 0
    let st2 := fillLoop catalog days cfg.classes_per_student cfg.classes_per_student
        total1 st1.1 st1.2.1 st1.2.2.1 st1.2.2.2
    some (st2.1, st2.2.2.1, st2.2.2.2)

/-- The student loop (scheduler.py line 67), threading the capacity tracker
and the random stream from student to student. -/
def studentsLoop (catalog : SCatalog) (days : List String) (cfg : SConfig)
    (students : List String) (cap : CapMap) (r : List Nat) :
    Option (List (String × DayMap) × CapMap) :=
  match students with
  | [] => some ([], cap)
  | stu :: rest =>
    match processStudent catalog days cfg cap r with
    | none => none
    | some pr =>
      match studentsLoop catalog days cfg rest pr.2.1 pr.2.2 with
      | none => none
      | some sl => some ((stu, pr.1) :: sl.1, sl.2)

/-- `SchedulerTool.use` on parsed input, also exposing the final capacity
tracker: students are Student1..StudentN from the configuration, days are the
catalog's keys (the configured day count is never consulted). -/
def useFull (catalog : SCatalog) (cfg : SConfig) (r : List Nat) :
    Option (List (String × DayMap) × CapMap) :=
  let students := (List.range cfg.num_students).map (fun i => "Student" ++ toString (i + 1))
  let days := catalog.map (·.1)
  studentsLoop catalog days cfg students (capInit catalog) r

/-- `SchedulerTool.use` on parsed input: the returned schedule. -/
def use (catalog : SCatalog) (cfg : SConfig) (r : List Nat) :
    Option (List (String × DayMap)) :=
  (useFull catalog cfg r).map (·.1)

/-! ## Theorems about the validator tools -/

/-- C6: every validator tool maps an unparsable input to a report with
`valid: false` and an error field describing the parse failure; each `use`
is a total function, so no exception reaches the caller. -/
theorem validators_report_parse_failure (e : String) :
    (classNumberUse (.error e)).valid = false
    ∧ (classNumberUse (.error e)).error = some ("JSON parsing error: " ++ e)
    ∧ (uniqueAttendanceUse (.error e)).valid = false
    ∧ (uniqueAttendanceUse (.error e)).error = some ("JSON parsing error: " ++ e)
    ∧ (classAttendanceUse (.error e)).valid = false
    ∧ (classAttendanceUse (.error e)).error = some ("JSON parsing error: " ++ e)
    ∧ (scheduleValidatorUse (.error e)).valid = false
    ∧ (scheduleValidatorUse (.error e)).error = some ("JSON parsing error: " ++ e)
    ∧ (classCounterUse (.error e)).valid = false
    ∧ (classCounterUse (.error e)).error = some ("JSON parsing error: " ++ e)
    ∧ (periodConflictUse (.error e)).valid = false
    ∧ (periodConflictUse (.error e)).error = some ("JSON parsing error: " ++ e) :=
  ⟨rfl, rfl, rfl, rfl, rfl, rfl, rfl, rfl, rfl, rfl, rfl, rfl⟩

/-- C5 counterexample: a student with 3 entries on Day1 and
`classes_per_student = 3` satisfies the spec's total-count condition, yet the
checker reports `valid: false` and lists the student: the code compares the
Day1 + Day2 count with the literal 5, not with the configured value. -/
theorem classNumber_checker_vs_spec_counterexample :
    specTotalCountOK
        [("S1", [("Day1", [⟨some "Math", some 1⟩, ⟨some "Sci", some 2⟩,
          ⟨some "Art", some 3⟩])])] 3 = true
    ∧ (classNumberUse (.ok
        [("S1", [("Day1", [⟨some "Math", some 1⟩, ⟨some "Sci", some 2⟩,
          ⟨some "Art", some 3⟩])])])).valid = false
    ∧ (classNumberUse (.ok
        [("S1", [("Day1", [⟨some "Math", some 1⟩, ⟨some "Sci", some 2⟩,
          ⟨some "Art", some 3⟩])])])).invalid_students = ["S1"] := by
  refine ⟨rfl, rfl, rfl⟩

/-- C5 amended: on every parsable allocation, `ClassNumberCheckerTool.use`
returns `valid: true` exactly when every student's Day1-plus-Day2 entry count
equals the literal constant 5 (the configured `classes_per_student` is never
consulted and day keys other than Day1 and Day2 are ignored); the
`invalid_students` list holds exactly the students violating that condition. -/
theorem classNumber_checker_counts_day1_day2_against_five
    (schedule : CheckerSchedule) :
    ((classNumberUse (.ok schedule)).valid = true ↔
      ∀ p ∈ schedule, (aget p.2 "Day1" []).length + (aget p.2 "Day2" []).length = 5)
    ∧ (∀ s, s ∈ (classNumberUse (.ok schedule)).invalid_students ↔
        ∃ dl, (s, dl) ∈ schedule
          ∧ (aget dl "Day1" []).length + (aget dl "Day2" []).length ≠ 5) := by
  constructor
  · simp only [classNumberUse, classNumberCore, List.isEmpty_iff, List.map_eq_nil_iff,
      List.filter_eq_nil_iff, bne_iff_ne, ne_eq, not_not]
  · intro s
    simp only [classNumberUse, classNumberCore, List.mem_map, List.mem_filter,
      bne_iff_ne, ne_eq]
    constructor
    · rintro ⟨⟨s', dl⟩, ⟨hmem, hne⟩, rfl⟩
      exact ⟨dl, hmem, hne⟩
    · rintro ⟨dl, hmem, hne⟩
      exact ⟨(s, dl), ⟨hmem, hne⟩, rfl⟩

/-- Closed form for the number of period-`null` conflicts produced by one
per-day scan: with no `null` key registered yet, every `period`-less entry
after the first produces one conflict. -/
theorem periodScan_countP_none (student day : String) (entries : List CEntry)
    (pd : List (Option Int × Option String)) :
    (periodScan student day entries pd).countP (fun c => c.period == none) =
      (if pd.any (fun q => q.1 == none) then
        entries.countP (fun e => e.period == none)
      else entries.countP (fun e => e.period == none) - 1) := by
  induction entries generalizing pd with
  | nil => simp [periodScan]
  | cons e rest ih =>
    obtain ⟨cn, pe⟩ := e
    by_cases hp : pe = none
    · subst hp
      rcases hfind : pd.find? (fun q => q.1 == (none : Option ℤ)) with _ | q
      · have hany : pd.any (fun q => q.1 == none) = false := by
          rw [List.any_eq_false]
          intro x hx
          simpa using List.find?_eq_none.mp hfind x hx
        simp [periodScan, hfind, ih, hany, List.countP_cons]
      · have hq := List.find?_some hfind
        have hany : pd.any (fun q => q.1 == none) = true :=
          List.any_eq_true.mpr ⟨q, List.mem_of_find?_eq_some hfind, hq⟩
        simp [periodScan, hfind, ih, hany, List.countP_cons]
    · have hpb : (pe == (none : Option ℤ)) = false := by simpa using hp
      have hcount : List.countP (fun e => e.period == none) (⟨cn, pe⟩ :: rest)
          = List.countP (fun e => e.period == none) rest :=
        List.countP_cons_of_neg _ _ (by simp [hpb])
      rcases hfind : pd.find? (fun q => q.1 == pe) with _ | q
      · simp only [periodScan, hfind, ih, List.any_cons]
        rw [hcount]
        by_cases hb : pd.any (fun q => q.1 == none) = true
        · rw [if_pos (by simp [hb]), if_pos hb]
        · rw [if_neg (by simp [hpb, hb]), if_neg hb]
      · simp only [periodScan, hfind]
        have hc2 : List.countP (fun c => c.period == none)
            ((⟨student, day, pe, [q.2, cn]⟩ : Conflict) :: periodScan student day rest pd)
            = List.countP (fun c => c.period == none) (periodScan student day rest pd) :=
          List.countP_cons_of_neg _ _ (by simp [hpb])
        rw [hc2, ih, hcount]

/-- Unfolding of the conflicts field of the period-conflict report. -/
theorem periodConflictCore_conflicts (schedule : CheckerSchedule) :
    (periodConflictCore schedule).conflicts =
      schedule.foldr (fun p acc =>
        periodScan p.1 "Day1" (aget p.2 "Day1" []) []
          ++ periodScan p.1 "Day2" (aget p.2 "Day2" []) [] ++ acc) [] := rfl

/-- C10: the period-conflict checker treats an entry without a "period" field
as period `null`: per student, the number of reported period-`null` conflicts
is the number of Day1 entries lacking a period minus one, plus the same for
Day2 (so one such entry on a day yields no conflict, k of them yield k - 1);
two period-less entries produce exactly the conflict at period `null` pairing
them.  `use` is a total function, so no exception is raised. -/
theorem periodConflict_missing_period_treated_as_null :
    (∀ schedule : CheckerSchedule,
      (periodConflictUse (.ok schedule)).conflicts.countP (fun c => c.period == none) =
        schedule.foldr (fun p acc =>
          ((aget p.2 "Day1" []).countP (fun e => e.period == none) - 1)
          + (((aget p.2 "Day2" []).countP (fun e => e.period == none) - 1) + acc)) 0)
    ∧ (∀ (stu : String) (c1 c2 : Option String),
        periodConflictUse (.ok [(stu, [("Day1", [⟨c1, none⟩, ⟨c2, none⟩]), ("Day2", [])])]) =
          ⟨false, [⟨stu, "Day1", none, [c1, c2]⟩], some 1, none⟩) := by
  constructor
  · intro schedule
    show (periodConflictCore schedule).conflicts.countP _ = _
    rw [periodConflictCore_conflicts]
    induction schedule with
    | nil => rfl
    | cons p rest ih =>
      simp only [List.foldr_cons]
      rw [List.countP_append, List.countP_append, ih,
        periodScan_countP_none, periodScan_countP_none]
      simp only [List.any_nil, Bool.false_eq_true, if_false]
      omega
  · intro stu c1 c2
    rfl

/-- Rounding to a tenth of a nonnegative rational is nonnegative. -/
theorem roundTenth_nonneg {q : ℚ} (h : 0 ≤ q) : 0 ≤ roundTenth q := by
  unfold roundTenth
  have h1 : (0 : ℤ) ≤ round (q * 10) := by
    rw [round_eq]
    exact Int.le_floor.mpr (by push_cast; linarith)
  exact div_nonneg (by exact_mod_cast h1) (by norm_num)

/-- A score at most 280/3 (that is, 100 minus one standard issue penalty)
stays strictly below 100 after rounding to a tenth. -/
theorem roundTenth_lt_100 {q : ℚ} (h : q ≤ 280 / 3) : roundTenth q < 100 := by
  unfold roundTenth
  have h1 : round (q * 10) < 934 := by
    rw [round_eq]
    exact Int.floor_lt.mpr (by push_cast; linarith)
  rw [div_lt_iff₀ (by norm_num : (0 : ℚ) < 10)]
  have h2 : ((round (q * 10) : ℤ) : ℚ) < 934 := by exact_mod_cast h1
  linarith

/-- The clarity score is the issue count pushed through the score formula. -/
theorem outputValidatorCore_clarity_eq (es ec ed : Nat) (sch : CheckerSchedule)
    (fo : String) :
    (outputValidatorCore es ec ed sch fo).clarity_score =
      roundTenth (max 0 (100 -
        ((outputValidatorCore es ec ed sch fo).issues.length : ℚ) * (100 / 15))) := rfl

/-- A rendering under 100 characters always contributes the "too short"
issue. -/
theorem outputValidatorCore_short_mem (es ec ed : Nat) (sch : CheckerSchedule)
    (fo : String) (h : fo.length < 100) :
    "Formatted output is missing or too short" ∈
      (outputValidatorCore es ec ed sch fo).issues := by
  have hts : (fo == "" || decide (fo.length < 100)) = true := by simp [h]
  simp only [outputValidatorCore]
  simp [hts, List.mem_append]

/-- C8: the clarity score of the Output Validator is never negative, and a
rendered text shorter than 100 characters always yields a "too short" issue
together with a clarity score strictly below 100. -/
theorem outputValidator_short_text_penalized (es ec ed : Nat)
    (sch : CheckerSchedule) (fo : String) :
    0 ≤ (outputValidatorCore es ec ed sch fo).clarity_score
    ∧ (fo.length < 100 →
        "Formatted output is missing or too short" ∈
          (outputValidatorCore es ec ed sch fo).issues
        ∧ (outputValidatorCore es ec ed sch fo).clarity_score < 100) := by
  constructor
  · rw [outputValidatorCore_clarity_eq]
    exact roundTenth_nonneg (le_max_left _ _)
  · intro h
    have hmem := outputValidatorCore_short_mem es ec ed sch fo h
    refine ⟨hmem, ?_⟩
    rw [outputValidatorCore_clarity_eq]
    apply roundTenth_lt_100
    have hlen : (1 : ℚ) ≤ ((outputValidatorCore es ec ed sch fo).issues.length : ℚ) := by
      exact_mod_cast List.length_pos.mpr (List.ne_nil_of_mem hmem)
    have hmul : (1 : ℚ) * (100 / 15) ≤
        ((outputValidatorCore es ec ed sch fo).issues.length : ℚ) * (100 / 15) :=
      mul_le_mul_of_nonneg_right hlen (by norm_num)
    apply max_le (by norm_num)
    linarith

/-- Witness for C8 at a concrete short rendering. -/
theorem outputValidator_short_text_penalized_witness :
    0 ≤ (outputValidatorCore 10 5 2 [] "tiny").clarity_score
    ∧ ("Formatted output is missing or too short" ∈
        (outputValidatorCore 10 5 2 [] "tiny").issues
      ∧ (outputValidatorCore 10 5 2 [] "tiny").clarity_score < 100) :=
  ⟨(outputValidator_short_text_penalized 10 5 2 [] "tiny").1,
    (outputValidator_short_text_penalized 10 5 2 [] "tiny").2 (by decide)⟩

/-! ## Basic facts about the scheduler's state operations -/

/-- Unfolding of `aget` on a cons cell. -/
theorem aget_cons {α : Type} (d : String) (v : α) (rest : List (String × α))
    (k : String) (dflt : α) :
    aget ((d, v) :: rest) k dflt = if (d == k) = true then v else aget rest k dflt := by
  by_cases hd : (d == k) = true
  · simp [aget, List.find?_cons, hd]
  · simp [aget, List.find?_cons, hd]

/-- Unfolding of `dmAppend` on a cons cell. -/
theorem dmAppend_cons (d : String) (es : List SEntry) (rest : DayMap)
    (day : String) (e : SEntry) :
    dmAppend ((d, es) :: rest) day e =
      if (d == day) = true then (d, es ++ [e]) :: rest
      else (d, es) :: dmAppend rest day e := rfl

/-- An indexed default access stays inside a nonempty list. -/
theorem getD_cons_mem {α : Type} (a : α) (as : List α) (i : Nat) :
    (a :: as).getD i a ∈ a :: as := by
  rcases h : (a :: as)[i]? with _ | x
  · simp [List.getD_eq_getElem?_getD, h]
  · have hx : x ∈ a :: as := List.getElem?_mem h
    simp [List.getD_eq_getElem?_getD, h, hx]

/-- Appending an entry to a day slot does not change the day keys. -/
theorem dmAppend_keys (dm : DayMap) (day : String) (e : SEntry) :
    (dmAppend dm day e).map (·.1) = dm.map (·.1) := by
  induction dm with
  | nil => rfl
  | cons p rest ih =>
    obtain ⟨d, es⟩ := p
    rw [dmAppend_cons]
    by_cases hd : (d == day) = true
    · rw [if_pos hd]
      simp
    · rw [if_neg hd]
      simp [ih]

/-- Appending to a present day key extends exactly that slot. -/
theorem aget_dmAppend (dm : DayMap) (day : String) (e : SEntry) :
    day ∈ dm.map (·.1) →
    aget (dmAppend dm day e) day [] = aget dm day [] ++ [e] := by
  induction dm with
  | nil => intro h; simp at h
  | cons p rest ih =>
    intro h
    obtain ⟨d, es⟩ := p
    rw [dmAppend_cons]
    by_cases hd : (d == day) = true
    · rw [if_pos hd, aget_cons, aget_cons, if_pos hd, if_pos hd]
    · rw [if_neg hd, aget_cons, aget_cons, if_neg hd, if_neg hd]
      apply ih
      rw [List.map_cons] at h
      rcases List.mem_cons.mp h with h1 | h1
      · exact absurd (by simp [h1]) hd
      · exact h1

/-- Appending to one day leaves every other day slot unchanged. -/
theorem aget_dmAppend_ne (dm : DayMap) (day : String) (e : SEntry) (d : String)
    (h : d ≠ day) :
    aget (dmAppend dm day e) d [] = aget dm d [] := by
  induction dm with
  | nil => rfl
  | cons p rest ih =>
    obtain ⟨d', es⟩ := p
    rw [dmAppend_cons]
    by_cases hd : (d' == day) = true
    · have hne : (d' == d) = false := by
        have h1 : d' = day := by simpa using hd
        subst h1
        simpa using fun hh : d' = d => h hh.symm
      rw [if_pos hd, aget_cons, aget_cons, hne]
      simp
    · rw [if_neg hd, aget_cons, aget_cons]
      by_cases hdd : (d' == d) = true
      · rw [if_pos hdd, if_pos hdd]
      · rw [if_neg hdd, if_neg hdd, ih]

/-- Missing day keys make the append a no-op. -/
theorem dmAppend_absent (dm : DayMap) (day : String) (e : SEntry)
    (h : day ∉ dm.map (·.1)) :
    dmAppend dm day e = dm := by
  induction dm with
  | nil => rfl
  | cons p rest ih =>
    obtain ⟨d, es⟩ := p
    simp only [List.map_cons, List.mem_cons] at h
    push_neg at h
    have hd : (d == day) = false := by
      simpa using fun hh : d = day => h.1 hh.symm
    rw [dmAppend_cons, hd]
    simp [ih h.2]

/-- Incrementing a day target does not change the target keys. -/
theorem tinc_keys (t : List (String × Nat)) (day : String) :
    (tinc t day).map (·.1) = t.map (·.1) := by
  induction t with
  | nil => rfl
  | cons p rest ih =>
    obtain ⟨d, n⟩ := p
    by_cases hd : (d == day) = true
    · simp [tinc, hd]
    · simp [tinc, hd, ih]

/-- The per-day scan does not change the day keys of the student's map. -/
theorem scanClasses_keys (dayClasses : List (String × SClassInfo)) (day : String)
    (target : Nat) (shuffled : List String) (dm : DayMap) (assigned : List String)
    (cap : CapMap) (r : List Nat) :
    (scanClasses dayClasses day target shuffled dm assigned cap r).1.map (·.1) =
      dm.map (·.1) := by
  induction shuffled generalizing dm assigned cap r with
  | nil => rfl
  | cons cls rest ih =>
    rw [scanClasses]
    repeat' (first | split | dsimp only)
    all_goals first
      | rfl
      | exact ih _ _ _ _
      | rw [ih, dmAppend_keys]

/-- The day loop does not change the day keys of the student's map. -/
theorem daysLoop_keys (catalog : SCatalog) (targets : List (String × Nat))
    (days : List String) (dm : DayMap) (assigned : List String) (cap : CapMap)
    (r : List Nat) :
    (daysLoop catalog targets days dm assigned cap r).1.map (·.1) = dm.map (·.1) := by
  induction days generalizing dm assigned cap r with
  | nil => rfl
  | cons day rest ih =>
    rw [daysLoop]
    repeat' (first | split | dsimp only)
    all_goals first
      | exact ih _ _ _ _
      | rw [ih, scanClasses_keys]

/-- A successful fallback assignment does not change the day keys. -/
theorem fillScanClasses_keys (dayClasses : List (String × SClassInfo)) (day : String)
    (names : List String) (dm : DayMap) (assigned : List String) (cap : CapMap)
    (r : List Nat) (st : DayMap × List String × CapMap × List Nat)
    (h : fillScanClasses dayClasses day names dm assigned cap r = some st) :
    st.1.map (·.1) = dm.map (·.1) := by
  induction names generalizing dm assigned cap r with
  | nil => simp [fillScanClasses] at h
  | cons cls rest ih =>
    rw [fillScanClasses] at h
    repeat' (first | split at h | dsimp only at h)
    all_goals first
      | exact ih _ _ _ _ h
      | (obtain rfl := Option.some_inj.mp h; exact dmAppend_keys dm day _)

/-- A successful fallback sweep does not change the day keys. -/
theorem fillScanDays_keys (catalog : SCatalog) (cps total : Nat)
    (days : List String) (dm : DayMap) (assigned : List String) (cap : CapMap)
    (r : List Nat) (st : DayMap × List String × CapMap × List Nat)
    (h : fillScanDays catalog cps total days dm assigned cap r = some st) :
    st.1.map (·.1) = dm.map (·.1) := by
  induction days generalizing dm assigned cap r with
  | nil => simp [fillScanDays] at h
  | cons day rest ih =>
    rw [fillScanDays] at h
    repeat' (first | split at h | dsimp only at h)
    all_goals (try exact ih _ _ _ _ h)
    all_goals (try simp at h)
    all_goals (subst h)
    all_goals (exact fillScanClasses_keys _ _ _ _ _ _ _ _ (by assumption))

/-- The fallback loop does not change the day keys. -/
theorem fillLoop_keys (catalog : SCatalog) (days : List String) (cps fuel total : Nat)
    (dm : DayMap) (assigned : List String) (cap : CapMap) (r : List Nat) :
    (fillLoop catalog days cps fuel total dm assigned cap r).1.map (·.1) =
      dm.map (·.1) := by
  induction fuel generalizing total dm assigned cap r with
  | zero => rfl
  | succ fuel ih =>
    rw [fillLoop]
    repeat' (first | split | dsimp only)
    all_goals first
      | rfl
      | (rename_i st heq
         rw [ih]
         exact fillScanDays_keys _ _ _ _ _ _ _ _ _ heq)

/-! ## Day-target distribution (C7) and missing-day behavior (C1) -/

/-- C7 counterexample: the configuration satisfies
`classes_per_student = min_classes_per_day * num_days`, yet with a catalog
holding a single day the distribution step computes
`remaining_classes = 2 - 1 * 1 = 1` (the code uses the number of catalog
days, never the configured `num_days`), runs the random-increment loop once,
and raises Day1's target to 2 instead of `min_classes_per_day = 1`. -/
theorem dayTargets_config_day_count_counterexample :
    (⟨1, 2, 2, 1⟩ : SConfig).classes_per_student =
      (⟨1, 2, 2, 1⟩ : SConfig).min_classes_per_day * (⟨1, 2, 2, 1⟩ : SConfig).num_days
    ∧ dayTargets ["Day1"] ⟨1, 2, 2, 1⟩ [] = some ([("Day1", 2)], [])
    ∧ dayTargets ["Day1"] ⟨1, 2, 2, 1⟩ [] ≠
        some (["Day1"].map (fun d =>
          (d, (⟨1, 2, 2, 1⟩ : SConfig).min_classes_per_day)), []) :=
  ⟨rfl, rfl, by decide⟩

/-- C7 amended: when `classes_per_student` equals `min_classes_per_day` times
the number of days present in the catalog input (the count the code actually
uses), `remaining_classes` is zero, the random-increment loop runs zero times
(the random stream is left untouched), and every day's target is exactly
`min_classes_per_day`. -/
theorem dayTargets_exact_when_cps_eq_min_times_days (days : List String)
    (cfg : SConfig) (r : List Nat)
    (h : cfg.classes_per_student = cfg.min_classes_per_day * days.length) :
    dayTargets days cfg r =
      some (days.map (fun d => (d, cfg.min_classes_per_day)), r) := by
  unfold dayTargets
  rw [h, Nat.sub_self]
  rfl

/-- Witness for C7 at a concrete two-day configuration. -/
theorem dayTargets_exact_witness :
    dayTargets ["Day1", "Day2"] ⟨10, 2, 2, 1⟩ [7, 3] =
      some ([("Day1", 1), ("Day2", 1)], [7, 3]) :=
  dayTargets_exact_when_cps_eq_min_times_days ["Day1", "Day2"] ⟨10, 2, 2, 1⟩ [7, 3] rfl

/-- A day referenced by the Configuration (a key Day1 .. DayN for N the
configured `num_days`) that has no catalog entry. -/
def configuredDayMissing (cfg : SConfig) (catalog : SCatalog) : Bool :=
  ((List.range cfg.num_days).map (fun i => "Day" ++ toString (i + 1))).any
    (fun d => !((catalog.map (·.1)).contains d))

/-- The distribution loop cannot fail on a nonempty day list. -/
theorem distributeRemaining_isSome (days : List String) (remaining : Nat)
    (targets : List (String × Nat)) (r : List Nat) (h : days ≠ []) :
    (distributeRemaining days remaining targets r).isSome = true := by
  induction remaining generalizing targets r with
  | zero => rfl
  | succ m ih =>
    cases days with
    | nil => exact absurd rfl h
    | cons a as => exact ih _ _

/-- Processing one student against a nonempty catalog cannot fail, and the
student's day map holds exactly the catalog's day keys. -/
theorem processStudent_some_keys (catalog : SCatalog) (days : List String)
    (cfg : SConfig) (cap : CapMap) (r : List Nat) (h : days ≠ []) :
    ∃ st, processStudent catalog days cfg cap r = some st
      ∧ st.1.map (·.1) = days := by
  unfold processStudent
  rcases hT : dayTargets days cfg r with _ | tr
  · have := distributeRemaining_isSome days
      (cfg.classes_per_student - cfg.min_classes_per_day * days.length)
      (days.map (fun d => (d, cfg.min_classes_per_day))) r h
    rw [show distributeRemaining days
        (cfg.classes_per_student - cfg.min_classes_per_day * days.length)
        (days.map (fun d => (d, cfg.min_classes_per_day))) r = dayTargets days cfg r
      from rfl, hT] at this
    simp at this
  · refine ⟨_, rfl, ?_⟩
    dsimp only
    rw [fillLoop_keys, daysLoop_keys]
    simp [Function.comp_def]

/-- The student loop against a nonempty catalog cannot fail, and every
student's day map holds exactly the catalog's day keys. -/
theorem studentsLoop_some_keys (catalog : SCatalog) (days : List String)
    (cfg : SConfig) (students : List String) (cap : CapMap) (r : List Nat)
    (h : days ≠ []) :
    ∃ sl, studentsLoop catalog days cfg students cap r = some sl
      ∧ ∀ p ∈ sl.1, p.2.map (·.1) = days := by
  induction students generalizing cap r with
  | nil => exact ⟨([], cap), rfl, by simp⟩
  | cons stu rest ih =>
    obtain ⟨st, hst, hkeys⟩ := processStudent_some_keys catalog days cfg cap r h
    obtain ⟨sl, hsl, hall⟩ := ih st.2.1 st.2.2
    refine ⟨((stu, st.1) :: sl.1, sl.2), ?_, ?_⟩
    · rw [studentsLoop, hst]
      dsimp only
      rw [hsl]
    · intro p hp
      rcases List.mem_cons.mp hp with rfl | hp'
      · exact hkeys
      · exact hall p hp'

/-- C1 counterexample: the configuration references Day2 (`num_days = 2`) but
the catalog has no Day2 entry; `SchedulerTool.use` raises nothing and returns
an allocation (covering only the catalog's Day1), since the code derives its
day list from the catalog keys and never checks the configured days — no
`MalformedCatalogError` exists anywhere in the repository. -/
theorem scheduler_missing_day_returns_allocation :
    configuredDayMissing ⟨1, 1, 2, 1⟩ [("Day1", [("Math", ⟨1, [1]⟩)])] = true
    ∧ use [("Day1", [("Math", ⟨1, [1]⟩)])] ⟨1, 1, 2, 1⟩ [] =
        some [("Student1", [("Day1", [⟨"Math", 1⟩])])] :=
  ⟨by decide, rfl⟩

/-- C1 amended: for every configuration, nonempty catalog and random stream —
in particular whenever a configured day is absent from the catalog —
`SchedulerTool.use` does not fail: it returns an allocation in which each
student's day keys are exactly the catalog's days, silently ignoring the
configured day count. -/
theorem scheduler_ignores_missing_configured_days (catalog : SCatalog)
    (cfg : SConfig) (r : List Nat) (hne : catalog ≠ [])
    (hmiss : configuredDayMissing cfg catalog = true) :
    ∃ s, use catalog cfg r = some s
      ∧ ∀ p ∈ s, p.2.map (·.1) = catalog.map (·.1) := by
  have hdays : catalog.map (·.1) ≠ [] := by
    simpa [List.map_eq_nil_iff] using hne
  obtain ⟨sl, hsl, hall⟩ := studentsLoop_some_keys catalog (catalog.map (·.1)) cfg
    ((List.range cfg.num_students).map (fun i => "Student" ++ toString (i + 1)))
    (capInit catalog) r hdays
  exact ⟨sl.1, by rw [use, useFull, hsl]; rfl, hall⟩

/-- Witness for C1 amended at the counterexample's concrete input. -/
theorem scheduler_ignores_missing_configured_days_witness :
    ∃ s, use [("Day1", [("Math", ⟨1, [1]⟩)])] ⟨1, 1, 2, 1⟩ [] = some s
      ∧ ∀ p ∈ s, p.2.map (·.1) =
          ([("Day1", [("Math", ⟨1, [1]⟩)])] : SCatalog).map (·.1) :=
  scheduler_ignores_missing_configured_days [("Day1", [("Math", ⟨1, [1]⟩)])]
    ⟨1, 1, 2, 1⟩ [] (by decide) (by decide)

/-! ## Global uniqueness of assigned class names (C3) -/

/-- All class names a student's day map holds, across all days. -/
def names (dm : DayMap) : List String :=
  dm.foldr (fun p acc => p.2.map (·.className) ++ acc) []

/-- Appending an entry either inserts its class name into the name multiset
(day key present) or does nothing (day key absent). -/
theorem names_dmAppend (dm : DayMap) (day : String) (e : SEntry) :
    List.Perm (names (dmAppend dm day e)) (e.className :: names dm)
    ∨ names (dmAppend dm day e) = names dm := by
  induction dm with
  | nil => exact Or.inr rfl
  | cons p rest ih =>
    obtain ⟨d, es⟩ := p
    rw [dmAppend_cons]
    by_cases hd : (d == day) = true
    · rw [if_pos hd]
      left
      show List.Perm ((es ++ [e]).map (·.className) ++ names rest) _
      rw [List.map_append, List.append_assoc]
      exact List.perm_middle
    · rw [if_neg hd]
      rcases ih with hperm | heq
      · left
        show List.Perm (es.map (·.className) ++ names (dmAppend rest day e))
          (e.className :: (es.map (·.className) ++ names rest))
        exact (hperm.append_left (es.map (·.className))).trans List.perm_middle
      · right
        show es.map (·.className) ++ names (dmAppend rest day e) = _
        rw [heq]
        rfl

/-- The per-student uniqueness invariant: the class names in the day map are
pairwise distinct and all recorded in `assigned_classes`. -/
def NamesInv (dm : DayMap) (assigned : List String) : Prop :=
  (names dm).Nodup ∧ ∀ n ∈ names dm, n ∈ assigned

/-- A guarded assignment (class not yet in `assigned_classes`) preserves the
uniqueness invariant. -/
theorem NamesInv_assign (dm : DayMap) (day : String) (e : SEntry)
    (assigned : List String) (h : NamesInv dm assigned)
    (hcls : ¬ assigned.contains e.className = true) :
    NamesInv (dmAppend dm day e) (e.className :: assigned) := by
  have hcls' : e.className ∉ assigned := by simpa using hcls
  rcases names_dmAppend dm day e with hperm | heq
  · constructor
    · exact hperm.symm.nodup
        (List.nodup_cons.mpr ⟨fun hmem => hcls' (h.2 _ hmem), h.1⟩)
    · intro n hn
      rcases List.mem_cons.mp (hperm.mem_iff.mp hn) with rfl | hn'
      · exact List.mem_cons_self _ _
      · exact List.mem_cons_of_mem _ (h.2 n hn')
  · rw [NamesInv, heq]
    exact ⟨h.1, fun n hn => List.mem_cons_of_mem _ (h.2 n hn)⟩

/-- The per-day scan preserves the uniqueness invariant. -/
theorem scanClasses_namesInv (dayClasses : List (String × SClassInfo)) (day : String)
    (target : Nat) (shuffled : List String) (dm : DayMap) (assigned : List String)
    (cap : CapMap) (r : List Nat) (h : NamesInv dm assigned) :
    NamesInv (scanClasses dayClasses day target shuffled dm assigned cap r).1
      (scanClasses dayClasses day target shuffled dm assigned cap r).2.1 := by
  induction shuffled generalizing dm assigned cap r with
  | nil => exact h
  | cons cls rest ih =>
    rw [scanClasses]
    repeat' (first | split | dsimp only)
    all_goals (try exact h)
    all_goals (try exact ih _ _ _ _ h)
    all_goals exact ih _ _ _ _ (NamesInv_assign _ _ _ _ h (by assumption))

/-- The day loop preserves the uniqueness invariant. -/
theorem daysLoop_namesInv (catalog : SCatalog) (targets : List (String × Nat))
    (days : List String) (dm : DayMap) (assigned : List String) (cap : CapMap)
    (r : List Nat) (h : NamesInv dm assigned) :
    NamesInv (daysLoop catalog targets days dm assigned cap r).1
      (daysLoop catalog targets days dm assigned cap r).2.1 := by
  induction days generalizing dm assigned cap r with
  | nil => exact h
  | cons day rest ih =>
    rw [daysLoop]
    repeat' (first | split | dsimp only)
    all_goals (try exact ih _ _ _ _ h)
    all_goals exact ih _ _ _ _ (scanClasses_namesInv _ _ _ _ _ _ _ _ h)

/-- A successful fallback assignment preserves the uniqueness invariant. -/
theorem fillScanClasses_namesInv (dayClasses : List (String × SClassInfo))
    (day : String) (pool : List String) (dm : DayMap) (assigned : List String)
    (cap : CapMap) (r : List Nat) (st : DayMap × List String × CapMap × List Nat)
    (hsome : fillScanClasses dayClasses day pool dm assigned cap r = some st)
    (h : NamesInv dm assigned) : NamesInv st.1 st.2.1 := by
  induction pool generalizing dm assigned cap r with
  | nil => simp [fillScanClasses] at hsome
  | cons cls rest ih =>
    rw [fillScanClasses] at hsome
    repeat' (first | split at hsome | dsimp only at hsome)
    all_goals (try exact ih _ _ _ _ hsome h)
    all_goals
      (obtain rfl := Option.some_inj.mp hsome
       exact NamesInv_assign _ _ _ _ h (by assumption))

/-- A successful fallback sweep preserves the uniqueness invariant. -/
theorem fillScanDays_namesInv (catalog : SCatalog) (cps total : Nat)
    (days : List String) (dm : DayMap) (assigned : List String) (cap : CapMap)
    (r : List Nat) (st : DayMap × List String × CapMap × List Nat)
    (hsome : fillScanDays catalog cps total days dm assigned cap r = some st)
    (h : NamesInv dm assigned) : NamesInv st.1 st.2.1 := by
  induction days generalizing dm assigned cap r with
  | nil => simp [fillScanDays] at hsome
  | cons day rest ih =>
    rw [fillScanDays] at hsome
    repeat' (first | split at hsome | dsimp only at hsome)
    all_goals (try exact ih _ _ _ _ hsome h)
    all_goals (try simp at hsome)
    all_goals
      (subst hsome
       exact fillScanClasses_namesInv _ _ _ _ _ _ _ _ (by assumption) h)

/-- The fallback loop preserves the uniqueness invariant. -/
theorem fillLoop_namesInv (catalog : SCatalog) (days : List String)
    (cps fuel total : Nat) (dm : DayMap) (assigned : List String) (cap : CapMap)
    (r : List Nat) (h : NamesInv dm assigned) :
    NamesInv (fillLoop catalog days cps fuel total dm assigned cap r).1
      (fillLoop catalog days cps fuel total dm assigned cap r).2.1 := by
  induction fuel generalizing total dm assigned cap r with
  | zero => exact h
  | succ fuel ih =>
    rw [fillLoop]
    repeat' (first | split | dsimp only)
    all_goals (try exact h)
    all_goals
      (rename_i st heq
       exact ih _ _ _ _ _ (fillScanDays_namesInv _ _ _ _ _ _ _ _ _ heq h))

/-- The freshly initialized day map holds no class names. -/
theorem names_init (days : List String) :
    names (days.map (fun d => (d, ([] : List SEntry)))) = [] := by
  induction days with
  | nil => rfl
  | cons d rest ih => exact ih

/-- Processing one student yields a day map with pairwise distinct class
names. -/
theorem processStudent_names (catalog : SCatalog) (days : List String)
    (cfg : SConfig) (cap : CapMap) (r : List Nat)
    (st : DayMap × CapMap × List Nat)
    (hps : processStudent catalog days cfg cap r = some st) :
    (names st.1).Nodup := by
  unfold processStudent at hps
  rcases hT : dayTargets days cfg r with _ | tr
  · rw [hT] at hps
    simp at hps
  · rw [hT] at hps
    dsimp only at hps
    obtain rfl := Option.some_inj.mp hps
    have h0 : NamesInv (days.map (fun d => (d, ([] : List SEntry)))) [] := by
      constructor
      · rw [names_init]
        exact List.nodup_nil
      · intro n hn
        rw [names_init] at hn
        cases hn
    have h1 := daysLoop_namesInv catalog tr.1 days
      (days.map (fun d => (d, []))) [] cap tr.2 h0
    exact (fillLoop_namesInv _ _ _ _ _ _ _ _ _ h1).1

/-- C3: in every allocation returned by `SchedulerTool.use`, each student's
multiset of class names across all days has no duplicates (an offering is
assigned to a student at most once globally, not merely once per day). -/
theorem scheduler_assigns_classes_uniquely (catalog : SCatalog) (cfg : SConfig)
    (r : List Nat) (s : List (String × DayMap))
    (h : use catalog cfg r = some s) :
    ∀ p ∈ s, (names p.2).Nodup := by
  suffices hloop : ∀ (students : List String) (cap : CapMap) (r' : List Nat) sl,
      studentsLoop catalog (catalog.map (·.1)) cfg students cap r' = some sl →
      ∀ p ∈ sl.1, (names p.2).Nodup by
    rcases hu : useFull catalog cfg r with _ | full
    · rw [use, hu] at h
      simp at h
    · rw [use, hu] at h
      obtain rfl := Option.some_inj.mp h
      exact hloop _ _ _ full hu
  intro students
  induction students with
  | nil =>
    intro cap r' sl hsl p hp
    obtain rfl := Option.some_inj.mp hsl
    simp at hp
  | cons stu rest ih =>
    intro cap r' sl hsl p hp
    rw [studentsLoop] at hsl
    rcases hps : processStudent catalog (catalog.map (·.1)) cfg cap r' with _ | pr
    · rw [hps] at hsl
      simp at hsl
    · rw [hps] at hsl
      dsimp only at hsl
      rcases hrest : studentsLoop catalog (catalog.map (·.1)) cfg rest pr.2.1 pr.2.2
        with _ | sl'
      · rw [hrest] at hsl
        simp at hsl
      · rw [hrest] at hsl
        dsimp only at hsl
        obtain rfl := Option.some_inj.mp hsl
        rcases List.mem_cons.mp hp with rfl | hp'
        · exact processStudent_names catalog _ cfg cap r' pr hps
        · exact ih pr.2.1 pr.2.2 sl' hrest p hp'

/-! ## Period conflicts and allowed periods (C4) -/

/-- Catalog lookup `class_data[day][class_name]`. -/
def catLookup (catalog : SCatalog) (day cls : String) : Option SClassInfo :=
  match catalog.find? (fun p => p.1 == day) with
  | none => none
  | some p => (p.2.find? (fun q => q.1 == cls)).map (·.2)

/-- The per-student slot invariant: on every day the assigned periods are
pairwise distinct and each entry's period is allowed by the catalog for that
entry's class on that day. -/
def SlotsInv (catalog : SCatalog) (dm : DayMap) : Prop :=
  ∀ p ∈ dm, ((p.2.map (·.period)).Nodup)
    ∧ ∀ e ∈ p.2, ∃ info, catLookup catalog p.1 e.className = some info
        ∧ e.period ∈ info.periods

/-- An assignment with a fresh period drawn from the catalog's allowed list
preserves the slot invariant. -/
theorem SlotsInv_assign (catalog : SCatalog) (dm : DayMap) (day : String)
    (e : SEntry) (h : SlotsInv catalog dm)
    (hpnew : e.period ∉ (aget dm day []).map (·.period))
    (hinfo : ∃ info, catLookup catalog day e.className = some info
      ∧ e.period ∈ info.periods) :
    SlotsInv catalog (dmAppend dm day e) := by
  induction dm with
  | nil => intro p hp; cases hp
  | cons q rest ih =>
    obtain ⟨d, es⟩ := q
    rw [dmAppend_cons]
    by_cases hd : (d == day) = true
    · rw [if_pos hd]
      have hday : d = day := by simpa using hd
      rw [aget_cons, if_pos hd] at hpnew
      intro p hp
      rcases List.mem_cons.mp hp with rfl | hp'
      · constructor
        · rw [List.map_append]
          rw [List.nodup_append]
          refine ⟨(h (d, es) (List.mem_cons_self _ _)).1, List.nodup_singleton _, ?_⟩
          intro x hx hx'
          rcases List.mem_singleton.mp hx' with rfl
          exact hpnew hx
        · intro e' he'
          rcases List.mem_append.mp he' with he1 | he1
          · exact (h (d, es) (List.mem_cons_self _ _)).2 e' he1
          · rcases List.mem_singleton.mp he1 with rfl
            exact hday ▸ hinfo
      · exact h p (List.mem_cons_of_mem _ hp')
    · rw [if_neg hd]
      rw [aget_cons, if_neg hd] at hpnew
      intro p hp
      rcases List.mem_cons.mp hp with rfl | hp'
      · exact h _ (List.mem_cons_self _ _)
      · exact ih (fun q hq => h q (List.mem_cons_of_mem _ hq)) hpnew p hp'

/-- The per-day scan preserves the slot invariant, provided every class-info
lookup it makes agrees with the catalog. -/
theorem scanClasses_slotsInv (catalog : SCatalog)
    (dayClasses : List (String × SClassInfo)) (day : String) (target : Nat)
    (shuffled : List String) (dm : DayMap) (assigned : List String)
    (cap : CapMap) (r : List Nat)
    (hlk : ∀ c qq, dayClasses.find? (fun q => q.1 == c) = some qq →
      catLookup catalog day c = some qq.2)
    (h : SlotsInv catalog dm) :
    SlotsInv catalog (scanClasses dayClasses day target shuffled dm assigned cap r).1 := by
  induction shuffled generalizing dm assigned cap r with
  | nil => exact h
  | cons cls rest ih =>
    rw [scanClasses]
    by_cases h1 : (aget dm day []).length ≥ target
    · rw [if_pos h1]
      exact h
    · rw [if_neg h1]
      by_cases h2 : assigned.contains cls = true
      · rw [if_pos h2]
        exact ih _ _ _ _ h
      · rw [if_neg h2]
        by_cases h3 : cap (day, cls) ≤ 0
        · rw [if_pos h3]
          exact ih _ _ _ _ h
        · rw [if_neg h3]
          rcases hfind : dayClasses.find? (fun q => q.1 == cls) with _ | q
          · simp only [hfind]
            exact ih _ _ _ _ h
          · simp only [hfind]
            try dsimp only
            rcases hfil : q.2.periods.filter
                (fun p => !((aget dm day []).map (·.period)).contains p) with _ | ⟨a, as⟩
            · simp only [hfil]
              exact ih _ _ _ _ h
            · simp only [hfil]
              try dsimp only
              apply ih
              apply SlotsInv_assign catalog dm day _ h
              · have hpmem : (a :: as).getD ((rnext r).1 % (a :: as).length) a
                    ∈ q.2.periods.filter
                      (fun p => !((aget dm day []).map (·.period)).contains p) := by
                  rw [hfil]
                  exact getD_cons_mem _ _ _
                have hpf := List.mem_filter.mp hpmem
                intro hbad
                have hcon : ((aget dm day []).map (·.period)).contains
                    ((a :: as).getD ((rnext r).1 % (a :: as).length) a) = true := by
                  simpa using hbad
                rw [hcon] at hpf
                simp at hpf
              · have hpmem : (a :: as).getD ((rnext r).1 % (a :: as).length) a
                    ∈ q.2.periods.filter
                      (fun p => !((aget dm day []).map (·.period)).contains p) := by
                  rw [hfil]
                  exact getD_cons_mem _ _ _
                have hpf := List.mem_filter.mp hpmem
                exact ⟨q.2, hlk cls q hfind, hpf.1⟩

/-- The day loop preserves the slot invariant. -/
theorem daysLoop_slotsInv (catalog : SCatalog) (targets : List (String × Nat))
    (days : List String) (dm : DayMap) (assigned : List String) (cap : CapMap)
    (r : List Nat) (h : SlotsInv catalog dm) :
    SlotsInv catalog (daysLoop catalog targets days dm assigned cap r).1 := by
  induction days generalizing dm assigned cap r with
  | nil => exact h
  | cons day rest ih =>
    rw [daysLoop]
    rcases hfd : catalog.find? (fun p => p.1 == day) with _ | pd
    · simp only [hfd]
      exact ih _ _ _ _ h
    · simp only [hfd]
      try dsimp only
      apply ih
      apply scanClasses_slotsInv
      · intro c qq hq
        unfold catLookup
        rw [hfd]
        simp [hq]
      · exact h

/-- A successful fallback assignment preserves the slot invariant. -/
theorem fillScanClasses_slotsInv (catalog : SCatalog)
    (dayClasses : List (String × SClassInfo)) (day : String) (pool : List String)
    (dm : DayMap) (assigned : List String) (cap : CapMap) (r : List Nat)
    (st : DayMap × List String × CapMap × List Nat)
    (hsome : fillScanClasses dayClasses day pool dm assigned cap r = some st)
    (hlk : ∀ c qq, dayClasses.find? (fun q => q.1 == c) = some qq →
      catLookup catalog day c = some qq.2)
    (h : SlotsInv catalog dm) : SlotsInv catalog st.1 := by
  induction pool generalizing dm assigned cap r with
  | nil => simp [fillScanClasses] at hsome
  | cons cls rest ih =>
    rw [fillScanClasses] at hsome
    by_cases h2 : assigned.contains cls = true
    · rw [if_pos h2] at hsome
      exact ih _ _ _ _ hsome h
    · rw [if_neg h2] at hsome
      by_cases h3 : cap (day, cls) ≤ 0
      · rw [if_pos h3] at hsome
        exact ih _ _ _ _ hsome h
      · rw [if_neg h3] at hsome
        rcases hfind : dayClasses.find? (fun q => q.1 == cls) with _ | q
        · simp only [hfind] at hsome
          exact ih _ _ _ _ hsome h
        · simp only [hfind] at hsome
          rcases hfil : q.2.periods.filter
              (fun p => !((aget dm day []).map (·.period)).contains p) with _ | ⟨a, as⟩
          · simp only [hfil] at hsome
            exact ih _ _ _ _ hsome h
          · simp only [hfil] at hsome
            obtain rfl := Option.some_inj.mp hsome
            apply SlotsInv_assign catalog dm day _ h
            · have hpmem : (a :: as).getD ((rnext r).1 % (a :: as).length) a
                  ∈ q.2.periods.filter
                    (fun p => !((aget dm day []).map (·.period)).contains p) := by
                rw [hfil]
                exact getD_cons_mem _ _ _
              have hpf := List.mem_filter.mp hpmem
              intro hbad
              have hcon : ((aget dm day []).map (·.period)).contains
                  ((a :: as).getD ((rnext r).1 % (a :: as).length) a) = true := by
                simpa using hbad
              rw [hcon] at hpf
              simp at hpf
            · have hpmem : (a :: as).getD ((rnext r).1 % (a :: as).length) a
                  ∈ q.2.periods.filter
                    (fun p => !((aget dm day []).map (·.period)).contains p) := by
                rw [hfil]
                exact getD_cons_mem _ _ _
              have hpf := List.mem_filter.mp hpmem
              exact ⟨q.2, hlk cls q hfind, hpf.1⟩

/-- A successful fallback sweep preserves the slot invariant. -/
theorem fillScanDays_slotsInv (catalog : SCatalog) (cps total : Nat)
    (days : List String) (dm : DayMap) (assigned : List String) (cap : CapMap)
    (r : List Nat) (st : DayMap × List String × CapMap × List Nat)
    (hsome : fillScanDays catalog cps total days dm assigned cap r = some st)
    (h : SlotsInv catalog dm) : SlotsInv catalog st.1 := by
  induction days generalizing dm assigned cap r with
  | nil => simp [fillScanDays] at hsome
  | cons day rest ih =>
    rw [fillScanDays] at hsome
    rcases hfd : catalog.find? (fun p => p.1 == day) with _ | pd
    · simp only [hfd] at hsome
      exact ih _ _ _ _ hsome h
    · simp only [hfd] at hsome
      by_cases htot : total ≥ cps
      · rw [if_pos htot] at hsome
        simp at hsome
      · rw [if_neg htot] at hsome
        rcases hfs : fillScanClasses pd.2 day (pd.2.map (·.1)) dm assigned cap r
          with _ | st'
        · simp only [hfs] at hsome
          exact ih _ _ _ _ hsome h
        · simp only [hfs] at hsome
          obtain rfl := Option.some_inj.mp hsome
          refine fillScanClasses_slotsInv catalog _ _ _ _ _ _ _ _ hfs ?_ h
          intro c qq hq
          unfold catLookup
          rw [hfd]
          simp [hq]

/-- The fallback loop preserves the slot invariant. -/
theorem fillLoop_slotsInv (catalog : SCatalog) (days : List String)
    (cps fuel total : Nat) (dm : DayMap) (assigned : List String) (cap : CapMap)
    (r : List Nat) (h : SlotsInv catalog dm) :
    SlotsInv catalog (fillLoop catalog days cps fuel total dm assigned cap r).1 := by
  induction fuel generalizing total dm assigned cap r with
  | zero => exact h
  | succ fuel ih =>
    rw [fillLoop]
    repeat' (first | split | dsimp only)
    all_goals (try exact h)
    all_goals
      (rename_i st heq
       exact ih _ _ _ _ _ (fillScanDays_slotsInv _ _ _ _ _ _ _ _ _ heq h))

/-- The freshly initialized day map satisfies the slot invariant. -/
theorem SlotsInv_init (catalog : SCatalog) (days : List String) :
    SlotsInv catalog (days.map (fun d => (d, []))) := by
  intro p hp
  obtain ⟨d, _, rfl⟩ := List.mem_map.mp hp
  exact ⟨List.nodup_nil, fun e he => absurd he (List.not_mem_nil e)⟩

/-- Processing one student yields a day map satisfying the slot invariant. -/
theorem processStudent_slots (catalog : SCatalog) (days : List String)
    (cfg : SConfig) (cap : CapMap) (r : List Nat)
    (st : DayMap × CapMap × List Nat)
    (hps : processStudent catalog days cfg cap r = some st) :
    SlotsInv catalog st.1 := by
  unfold processStudent at hps
  rcases hT : dayTargets days cfg r with _ | tr
  · rw [hT] at hps
    simp at hps
  · rw [hT] at hps
    dsimp only at hps
    obtain rfl := Option.some_inj.mp hps
    have h1 := daysLoop_slotsInv catalog tr.1 days
      (days.map (fun d => (d, []))) [] cap tr.2 (SlotsInv_init catalog days)
    exact fillLoop_slotsInv _ _ _ _ _ _ _ _ _ h1

/-- C4: in every allocation returned by `SchedulerTool.use`, no two entries of
one student on one day share a period value, and every assigned period comes
from the offering's allowed-period list in the catalog. -/
theorem scheduler_no_period_conflicts (catalog : SCatalog) (cfg : SConfig)
    (r : List Nat) (s : List (String × DayMap))
    (h : use catalog cfg r = some s) :
    ∀ p ∈ s, ∀ slot ∈ p.2, ((slot.2.map (·.period)).Nodup)
      ∧ ∀ e ∈ slot.2, ∃ info, catLookup catalog slot.1 e.className = some info
          ∧ e.period ∈ info.periods := by
  suffices hloop : ∀ (students : List String) (cap : CapMap) (r' : List Nat) sl,
      studentsLoop catalog (catalog.map (·.1)) cfg students cap r' = some sl →
      ∀ p ∈ sl.1, SlotsInv catalog p.2 by
    rcases hu : useFull catalog cfg r with _ | full
    · rw [use, hu] at h
      simp at h
    · rw [use, hu] at h
      obtain rfl := Option.some_inj.mp h
      exact fun p hp => hloop _ _ _ full hu p hp
  intro students
  induction students with
  | nil =>
    intro cap r' sl hsl p hp
    obtain rfl := Option.some_inj.mp hsl
    simp at hp
  | cons stu rest ih =>
    intro cap r' sl hsl p hp
    rw [studentsLoop] at hsl
    rcases hps : processStudent catalog (catalog.map (·.1)) cfg cap r' with _ | pr
    · rw [hps] at hsl
      simp at hsl
    · rw [hps] at hsl
      dsimp only at hsl
      rcases hrest : studentsLoop catalog (catalog.map (·.1)) cfg rest pr.2.1 pr.2.2
        with _ | sl'
      · rw [hrest] at hsl
        simp at hsl
      · rw [hrest] at hsl
        dsimp only at hsl
        obtain rfl := Option.some_inj.mp hsl
        rcases List.mem_cons.mp hp with rfl | hp'
        · exact processStudent_slots catalog _ cfg cap r' pr hps
        · exact ih pr.2.1 pr.2.2 sl' hrest p hp'

/-- Witness for C3 at a concrete run. -/
theorem scheduler_assigns_classes_uniquely_witness :
    (names [("Day1", [(⟨"Math", 1⟩ : SEntry)])]).Nodup :=
  scheduler_assigns_classes_uniquely [("Day1", [("Math", ⟨1, [1]⟩)])] ⟨1, 1, 2, 1⟩ []
    [("Student1", [("Day1", [⟨"Math", 1⟩])])] rfl
    ("Student1", [("Day1", [⟨"Math", 1⟩])]) (by simp)

/-- Witness for C4 at a concrete run. -/
theorem scheduler_no_period_conflicts_witness :
    (([(⟨"Math", 1⟩ : SEntry)]).map (·.period)).Nodup
    ∧ ∀ e ∈ [(⟨"Math", 1⟩ : SEntry)],
        ∃ info, catLookup [("Day1", [("Math", ⟨1, [1]⟩)])] "Day1" e.className = some info
          ∧ e.period ∈ info.periods :=
  scheduler_no_period_conflicts [("Day1", [("Math", ⟨1, [1]⟩)])] ⟨1, 1, 2, 1⟩ []
    [("Student1", [("Day1", [⟨"Math", 1⟩])])] rfl
    ("Student1", [("Day1", [⟨"Math", 1⟩])]) (by simp)
    ("Day1", [⟨"Math", 1⟩]) (by simp)

/-! ## Per-student totals never exceed classes_per_student (C9) -/

/-- Total number of entries in a student's day map. -/
def totalEntries (dm : DayMap) : Nat :=
  dm.foldr (fun p a => p.2.length + a) 0

/-- Appending to a present day raises the total by one. -/
theorem totalEntries_dmAppend_mem (dm : DayMap) (day : String) (e : SEntry)
    (h : day ∈ dm.map (·.1)) :
    totalEntries (dmAppend dm day e) = totalEntries dm + 1 := by
  induction dm with
  | nil => simp at h
  | cons p rest ih =>
    obtain ⟨d, es⟩ := p
    rw [dmAppend_cons]
    by_cases hd : (d == day) = true
    · rw [if_pos hd]
      show (es ++ [e]).length + totalEntries rest = es.length + totalEntries rest + 1
      simp [List.length_append]
      omega
    · rw [if_neg hd]
      show es.length + totalEntries (dmAppend rest day e) = es.length + totalEntries rest + 1
      rw [List.map_cons] at h
      rcases List.mem_cons.mp h with h1 | h1
      · exact absurd (by simp [h1]) hd
      · rw [ih h1]
        omega

/-- What the per-day scan does to slot lengths: the scanned day's slot never
exceeds its target (or its initial length), other days' slots are untouched,
and the total grows exactly by the scanned slot's growth. -/
theorem scanClasses_slots (dayClasses : List (String × SClassInfo)) (day : String)
    (target : Nat) (shuffled : List String) (dm : DayMap) (assigned : List String)
    (cap : CapMap) (r : List Nat) :
    (aget (scanClasses dayClasses day target shuffled dm assigned cap r).1 day []).length
        ≤ max (aget dm day []).length target
    ∧ (∀ d, d ≠ day →
        aget (scanClasses dayClasses day target shuffled dm assigned cap r).1 d []
          = aget dm d [])
    ∧ totalEntries (scanClasses dayClasses day target shuffled dm assigned cap r).1
          + (aget dm day []).length
        = totalEntries dm
          + (aget (scanClasses dayClasses day target shuffled dm assigned cap r).1 day []).length := by
  induction shuffled generalizing dm assigned cap r with
  | nil => exact ⟨le_max_left _ _, fun d _ => rfl, rfl⟩
  | cons cls rest ih =>
    rw [scanClasses]
    by_cases h1 : (aget dm day []).length ≥ target
    · rw [if_pos h1]
      exact ⟨le_max_left _ _, fun d _ => rfl, rfl⟩
    · rw [if_neg h1]
      by_cases h2 : assigned.contains cls = true
      · rw [if_pos h2]
        exact ih _ _ _ _
      · rw [if_neg h2]
        by_cases h3 : cap (day, cls) ≤ 0
        · rw [if_pos h3]
          exact ih _ _ _ _
        · rw [if_neg h3]
          rcases hfind : dayClasses.find? (fun q => q.1 == cls) with _ | q
          · simp only [hfind]
            exact ih _ _ _ _
          · simp only [hfind]
            try dsimp only
            rcases hfil : q.2.periods.filter
                (fun p => !((aget dm day []).map (·.period)).contains p) with _ | ⟨a, as⟩
            · simp only [hfil]
              exact ih _ _ _ _
            · simp only [hfil]
              try dsimp only
              by_cases hkey : day ∈ dm.map (·.1)
              · obtain ⟨ihA, ihB, ihC⟩ := ih (dmAppend dm day
                  ⟨cls, (a :: as).getD ((rnext r).1 % (a :: as).length) a⟩)
                  (cls :: assigned) (cupd cap (day, cls) (cap (day, cls) - 1))
                  (rnext r).2
                rw [aget_dmAppend dm day _ hkey] at ihA ihC
                rw [totalEntries_dmAppend_mem dm day _ hkey] at ihC
                refine ⟨?_, ?_, ?_⟩
                · refine le_trans ihA ?_
                  have hlt : (aget dm day []).length + 1 ≤ target := by omega
                  rw [List.length_append]
                  simp only [List.length_singleton]
                  rw [Nat.max_eq_right hlt]
                  exact le_max_right _ _
                · intro d hd
                  rw [ihB d hd, aget_dmAppend_ne dm day _ d hd]
                · rw [List.length_append] at ihC
                  simp only [List.length_singleton] at ihC
                  omega
              · rw [dmAppend_absent dm day _ hkey]
                exact ih _ _ _ _

/-- Slots of a freshly initialized day map are empty. -/
theorem aget_init (days : List String) (d : String) :
    aget (days.map (fun dd => (dd, ([] : List SEntry)))) d [] = [] := by
  induction days with
  | nil => rfl
  | cons a rest ih =>
    rw [List.map_cons, aget_cons]
    by_cases hd : (a == d) = true
    · rw [if_pos hd]
    · rw [if_neg hd]
      exact ih

/-- The freshly initialized day map has no entries. -/
theorem totalEntries_init (days : List String) :
    totalEntries (days.map (fun d => (d, ([] : List SEntry)))) = 0 := by
  induction days with
  | nil => rfl
  | cons d rest ih =>
    show [].length + totalEntries (rest.map (fun d => (d, []))) = 0
    simpa using ih

/-- The day loop adds at most the sum of the processed days' targets, when
those days' slots start empty. -/
theorem daysLoop_total (catalog : SCatalog) (targets : List (String × Nat))
    (days : List String) (dm : DayMap) (assigned : List String) (cap : CapMap)
    (r : List Nat) (hnd : days.Nodup) (hempty : ∀ d ∈ days, aget dm d [] = []) :
    totalEntries (daysLoop catalog targets days dm assigned cap r).1 ≤
      totalEntries dm + days.foldr (fun d a => aget targets d 0 + a) 0 := by
  induction days generalizing dm assigned cap r with
  | nil => simp [daysLoop]
  | cons day rest ih =>
    have hnd' := (List.nodup_cons.mp hnd).2
    have hday := (List.nodup_cons.mp hnd).1
    rw [daysLoop]
    rcases hfd : catalog.find? (fun p => p.1 == day) with _ | pd
    · simp only [hfd]
      refine le_trans (ih _ _ _ _ hnd' (fun d hd => hempty d (List.mem_cons_of_mem _ hd))) ?_
      rw [List.foldr_cons]
      omega
    · simp only [hfd]
      try dsimp only
      obtain ⟨hA, hB, hC⟩ := scanClasses_slots pd.2 day (aget targets day 0)
        (rshuffle (pd.2.map (·.1)) r).1 dm assigned cap (rshuffle (pd.2.map (·.1)) r).2
      rw [hempty day (List.mem_cons_self _ _)] at hA hC
      simp only [List.length_nil, Nat.max_eq_right (Nat.zero_le _), Nat.add_zero] at hA hC
      have hscanTot : totalEntries (scanClasses pd.2 day (aget targets day 0)
          (rshuffle (pd.2.map (·.1)) r).1 dm assigned cap
          (rshuffle (pd.2.map (·.1)) r).2).1 ≤ totalEntries dm + aget targets day 0 := by
        omega
      refine le_trans (ih _ _ _ _ hnd' ?_) ?_
      · intro d hd
        rw [hB d (fun hh => hday (hh ▸ hd))]
        exact hempty d (List.mem_cons_of_mem _ hd)
      · rw [List.foldr_cons]
        omega

/-- A successful fallback assignment raises the total by exactly one. -/
theorem fillScanClasses_total (dayClasses : List (String × SClassInfo))
    (day : String) (pool : List String) (dm : DayMap) (assigned : List String)
    (cap : CapMap) (r : List Nat) (st : DayMap × List String × CapMap × List Nat)
    (hsome : fillScanClasses dayClasses day pool dm assigned cap r = some st)
    (hkey : day ∈ dm.map (·.1)) :
    totalEntries st.1 = totalEntries dm + 1 := by
  induction pool generalizing dm assigned cap r with
  | nil => simp [fillScanClasses] at hsome
  | cons cls rest ih =>
    rw [fillScanClasses] at hsome
    by_cases h2 : assigned.contains cls = true
    · rw [if_pos h2] at hsome
      exact ih _ _ _ _ hsome hkey
    · rw [if_neg h2] at hsome
      by_cases h3 : cap (day, cls) ≤ 0
      · rw [if_pos h3] at hsome
        exact ih _ _ _ _ hsome hkey
      · rw [if_neg h3] at hsome
        rcases hfind : dayClasses.find? (fun q => q.1 == cls) with _ | q
        · simp only [hfind] at hsome
          exact ih _ _ _ _ hsome hkey
        · simp only [hfind] at hsome
          rcases hfil : q.2.periods.filter
              (fun p => !((aget dm day []).map (·.period)).contains p) with _ | ⟨a, as⟩
          · simp only [hfil] at hsome
            exact ih _ _ _ _ hsome hkey
          · simp only [hfil] at hsome
            obtain rfl := Option.some_inj.mp hsome
            exact totalEntries_dmAppend_mem dm day _ hkey

/-- A successful fallback sweep raises the total by exactly one. -/
theorem fillScanDays_total (catalog : SCatalog) (cps total : Nat)
    (days : List String) (dm : DayMap) (assigned : List String) (cap : CapMap)
    (r : List Nat) (st : DayMap × List String × CapMap × List Nat)
    (hsome : fillScanDays catalog cps total days dm assigned cap r = some st)
    (hkeys : ∀ d ∈ days, d ∈ dm.map (·.1)) :
    totalEntries st.1 = totalEntries dm + 1 := by
  induction days generalizing dm assigned cap r with
  | nil => simp [fillScanDays] at hsome
  | cons day rest ih =>
    rw [fillScanDays] at hsome
    rcases hfd : catalog.find? (fun p => p.1 == day) with _ | pd
    · simp only [hfd] at hsome
      exact ih _ _ _ _ hsome (fun d hd => hkeys d (List.mem_cons_of_mem _ hd))
    · simp only [hfd] at hsome
      by_cases htot : total ≥ cps
      · rw [if_pos htot] at hsome
        simp at hsome
      · rw [if_neg htot] at hsome
        rcases hfs : fillScanClasses pd.2 day (pd.2.map (·.1)) dm assigned cap r
          with _ | st'
        · simp only [hfs] at hsome
          exact ih _ _ _ _ hsome (fun d hd => hkeys d (List.mem_cons_of_mem _ hd))
        · simp only [hfs] at hsome
          obtain rfl := Option.some_inj.mp hsome
          exact fillScanClasses_total _ _ _ _ _ _ _ _ hfs
            (hkeys day (List.mem_cons_self _ _))

/-- The fallback loop never pushes the total beyond `classes_per_student`. -/
theorem fillLoop_total (catalog : SCatalog) (days : List String)
    (cps fuel total : Nat) (dm : DayMap) (assigned : List String) (cap : CapMap)
    (r : List Nat) (hkeys : dm.map (·.1) = days) (htot : totalEntries dm = total)
    (hle : total ≤ cps) :
    totalEntries (fillLoop catalog days cps fuel total dm assigned cap r).1 ≤ cps := by
  induction fuel generalizing total dm assigned cap r with
  | zero => rw [fillLoop, htot] at *; exact hle
  | succ fuel ih =>
    rw [fillLoop]
    by_cases hlt : total < cps
    · rw [if_pos hlt]
      rcases hfs : fillScanDays catalog cps total days dm assigned cap r with _ | st
      · simpa [htot] using hle
      · try dsimp only
        refine ih (total + 1) st.1 st.2.1 st.2.2.1 st.2.2.2 ?_ ?_ hlt
        · rw [fillScanDays_keys _ _ _ _ _ _ _ _ _ hfs, hkeys]
        · rw [fillScanDays_total _ _ _ _ _ _ _ _ _ hfs (fun d hd => hkeys ▸ hd), htot]
    · rw [if_neg hlt]
      simpa [htot] using hle

/-- Sum of the day-target values. -/
def sumVals (t : List (String × Nat)) : Nat :=
  t.foldr (fun p a => p.2 + a) 0

/-- Incrementing a present day raises the target sum by one. -/
theorem sumVals_tinc (t : List (String × Nat)) (day : String)
    (h : day ∈ t.map (·.1)) : sumVals (tinc t day) = sumVals t + 1 := by
  induction t with
  | nil => simp at h
  | cons p rest ih =>
    obtain ⟨d, n⟩ := p
    by_cases hd : (d == day) = true
    · show sumVals (if (d == day) = true then (d, n + 1) :: rest else (d, n) :: tinc rest day)
        = sumVals ((d, n) :: rest) + 1
      rw [if_pos hd]
      show n + 1 + sumVals rest = n + sumVals rest + 1
      omega
    · show sumVals (if (d == day) = true then (d, n + 1) :: rest else (d, n) :: tinc rest day)
        = sumVals ((d, n) :: rest) + 1
      rw [if_neg hd]
      show n + sumVals (tinc rest day) = n + sumVals rest + 1
      rw [List.map_cons] at h
      rcases List.mem_cons.mp h with h1 | h1
      · exact absurd (by simp [h1]) hd
      · rw [ih h1]
        omega

/-- The distribution loop adds exactly `remaining` to the target sum and
keeps the target keys. -/
theorem distributeRemaining_spec (days : List String) (remaining : Nat)
    (targets : List (String × Nat)) (r : List Nat)
    (tr : List (String × Nat) × List Nat)
    (hsome : distributeRemaining days remaining targets r = some tr)
    (hsub : ∀ d ∈ days, d ∈ targets.map (·.1)) :
    tr.1.map (·.1) = targets.map (·.1) ∧ sumVals tr.1 = sumVals targets + remaining := by
  induction remaining generalizing targets r with
  | zero =>
    obtain rfl := Option.some_inj.mp hsome
    exact ⟨rfl, rfl⟩
  | succ m ih =>
    cases days with
    | nil => simp [distributeRemaining] at hsome
    | cons a as =>
      rw [distributeRemaining] at hsome
      try dsimp only at hsome
      have hmem : (a :: as).getD ((rnext r).1 % (a :: as).length) a ∈ a :: as :=
        getD_cons_mem _ _ _
      have hkey := hsub _ hmem
      obtain ⟨hk, hs⟩ := ih (tinc targets ((a :: as).getD ((rnext r).1 % (a :: as).length) a))
        (rnext r).2 hsome (fun d hd => (tinc_keys targets _) ▸ hsub d hd)
      refine ⟨by rw [hk, tinc_keys], ?_⟩
      rw [hs, sumVals_tinc _ _ hkey]
      omega

/-- Sum of the initial targets: every day starts at `min_classes_per_day`. -/
theorem sumVals_init (days : List String) (m : Nat) :
    sumVals (days.map (fun d => (d, m))) = m * days.length := by
  induction days with
  | nil => simp [sumVals]
  | cons d rest ih =>
    show m + sumVals (rest.map (fun d => (d, m))) = m * (rest.length + 1)
    rw [ih]
    ring

/-- Over distinct day keys, folding target lookups equals the target sum. -/
theorem foldr_aget_targets (days : List String) (t : List (String × Nat))
    (ht : t.map (·.1) = days) (hnd : days.Nodup) :
    days.foldr (fun d a => aget t d 0 + a) 0 = sumVals t := by
  induction days generalizing t with
  | nil =>
    rw [List.map_eq_nil_iff] at ht
    subst ht
    rfl
  | cons day rest ih =>
    cases t with
    | nil => simp at ht
    | cons q t' =>
      rw [List.map_cons] at ht
      have hq1 : q.1 = day := (List.cons.injEq _ _ _ _ ▸ ht).1
      have ht' : t'.map (·.1) = rest := (List.cons.injEq _ _ _ _ ▸ ht).2
      have hcongr : rest.foldr (fun d a => aget (q :: t') d 0 + a) 0
          = rest.foldr (fun d a => aget t' d 0 + a) 0 := by
        have hnotday : ∀ d ∈ rest, d ≠ day := by
          intro d hd hdd
          exact (List.nodup_cons.mp hnd).1 (hdd ▸ hd)
        clear ih ht' hnd ht
        induction rest with
        | nil => rfl
        | cons d2 rest2 ih2 =>
          rw [List.foldr_cons, List.foldr_cons,
            ih2 (fun d hd => hnotday d (List.mem_cons_of_mem _ hd))]
          have : aget (q :: t') d2 0 = aget t' d2 0 := by
            obtain ⟨q1, q2⟩ := q
            rw [aget_cons, if_neg]
            simp only at hq1
            subst hq1
            simpa using fun hh : q1 = d2 =>
              hnotday d2 (List.mem_cons_self _ _) (hh ▸ rfl)
          rw [this]
      rw [List.foldr_cons, hcongr, ih t' ht' (List.nodup_cons.mp hnd).2]
      show aget (q :: t') day 0 + sumVals t' = sumVals (q :: t')
      obtain ⟨q1, q2⟩ := q
      rw [aget_cons, if_pos (by simpa using hq1)]
      rfl

/-- Over distinct day keys, folding slot lengths equals the total entry
count. -/
theorem foldr_aget_len (days : List String) (dm : DayMap)
    (ht : dm.map (·.1) = days) (hnd : days.Nodup) :
    days.foldr (fun d a => (aget dm d []).length + a) 0 = totalEntries dm := by
  induction days generalizing dm with
  | nil =>
    rw [List.map_eq_nil_iff] at ht
    subst ht
    rfl
  | cons day rest ih =>
    cases dm with
    | nil => simp at ht
    | cons q t' =>
      rw [List.map_cons] at ht
      have hq1 : q.1 = day := (List.cons.injEq _ _ _ _ ▸ ht).1
      have ht' : t'.map (·.1) = rest := (List.cons.injEq _ _ _ _ ▸ ht).2
      have hcongr : rest.foldr (fun d a => (aget (q :: t') d []).length + a) 0
          = rest.foldr (fun d a => (aget t' d []).length + a) 0 := by
        have hnotday : ∀ d ∈ rest, d ≠ day := by
          intro d hd hdd
          exact (List.nodup_cons.mp hnd).1 (hdd ▸ hd)
        clear ih ht' hnd ht
        induction rest with
        | nil => rfl
        | cons d2 rest2 ih2 =>
          rw [List.foldr_cons, List.foldr_cons,
            ih2 (fun d hd => hnotday d (List.mem_cons_of_mem _ hd))]
          have : aget (q :: t') d2 [] = aget t' d2 [] := by
            obtain ⟨q1, q2⟩ := q
            rw [aget_cons, if_neg]
            simp only at hq1
            subst hq1
            simpa using fun hh : q1 = d2 =>
              hnotday d2 (List.mem_cons_self _ _) (hh ▸ rfl)
          rw [this]
      rw [List.foldr_cons, hcongr, ih t' ht' (List.nodup_cons.mp hnd).2]
      show (aget (q :: t') day []).length + totalEntries t' = totalEntries (q :: t')
      obtain ⟨q1, q2⟩ := q
      rw [aget_cons, if_pos (by simpa using hq1)]
      rfl

/-- Processing one student never assigns more than `classes_per_student`
entries, under the configuration invariant. -/
theorem processStudent_total (catalog : SCatalog) (days : List String)
    (cfg : SConfig) (cap : CapMap) (r : List Nat)
    (st : DayMap × CapMap × List Nat) (hnd : days.Nodup)
    (hm : cfg.min_classes_per_day * days.length ≤ cfg.classes_per_student)
    (hps : processStudent catalog days cfg cap r = some st) :
    totalEntries st.1 ≤ cfg.classes_per_student := by
  unfold processStudent at hps
  rcases hT : dayTargets days cfg r with _ | tr
  · rw [hT] at hps
    simp at hps
  · rw [hT] at hps
    dsimp only at hps
    obtain rfl := Option.some_inj.mp hps
    have hT' : distributeRemaining days
        (cfg.classes_per_student - cfg.min_classes_per_day * days.length)
        (days.map (fun d => (d, cfg.min_classes_per_day))) r = some tr := hT
    have hspec := distributeRemaining_spec days
      (cfg.classes_per_student - cfg.min_classes_per_day * days.length)
      (days.map (fun d => (d, cfg.min_classes_per_day))) r tr hT'
      (by intro d hd; simpa using hd)
    have hkeys0 : (days.map (fun d => (d, cfg.min_classes_per_day))).map (·.1) = days := by
      simp [Function.comp_def]
    have htrkeys : tr.1.map (·.1) = days := by rw [hspec.1, hkeys0]
    have htrsum : sumVals tr.1 = cfg.classes_per_student := by
      rw [hspec.2, sumVals_init]
      omega
    have hdm1keys : (daysLoop catalog tr.1 days
        (days.map (fun d => (d, []))) [] cap tr.2).1.map (·.1) = days := by
      rw [daysLoop_keys]
      simp [Function.comp_def]
    have hdm1 : totalEntries (daysLoop catalog tr.1 days
        (days.map (fun d => (d, []))) [] cap tr.2).1 ≤ cfg.classes_per_student := by
      refine le_trans (daysLoop_total catalog tr.1 days _ [] cap tr.2 hnd
        (fun d _ => aget_init days d)) ?_
      rw [totalEntries_init, foldr_aget_targets days tr.1 htrkeys hnd, htrsum]
      omega
    refine fillLoop_total catalog days cfg.classes_per_student
      cfg.classes_per_student _ _ _ _ _ hdm1keys ?_ ?_
    · exact (foldr_aget_len days _ hdm1keys hnd).symm
    · rw [foldr_aget_len days _ hdm1keys hnd]
      exact hdm1

/-- C9: in every allocation returned by `SchedulerTool.use`, each student's
total number of assigned entries across all days is at most
`classes_per_student` (a student can be under-filled, never over-filled),
under the Configuration invariant that `classes_per_student` is at least
`min_classes_per_day` times the day count. -/
theorem scheduler_never_overfills (catalog : SCatalog) (cfg : SConfig)
    (r : List Nat) (s : List (String × DayMap))
    (hd : (catalog.map (·.1)).Nodup)
    (hm : cfg.min_classes_per_day * catalog.length ≤ cfg.classes_per_student)
    (h : use catalog cfg r = some s) :
    ∀ p ∈ s, totalEntries p.2 ≤ cfg.classes_per_student := by
  have hm' : cfg.min_classes_per_day * (catalog.map (·.1)).length ≤
      cfg.classes_per_student := by
    rw [List.length_map]
    exact hm
  suffices hloop : ∀ (students : List String) (cap : CapMap) (r' : List Nat) sl,
      studentsLoop catalog (catalog.map (·.1)) cfg students cap r' = some sl →
      ∀ p ∈ sl.1, totalEntries p.2 ≤ cfg.classes_per_student by
    rcases hu : useFull catalog cfg r with _ | full
    · rw [use, hu] at h
      simp at h
    · rw [use, hu] at h
      obtain rfl := Option.some_inj.mp h
      exact hloop _ _ _ full hu
  intro students
  induction students with
  | nil =>
    intro cap r' sl hsl p hp
    obtain rfl := Option.some_inj.mp hsl
    simp at hp
  | cons stu rest ih =>
    intro cap r' sl hsl p hp
    rw [studentsLoop] at hsl
    rcases hps : processStudent catalog (catalog.map (·.1)) cfg cap r' with _ | pr
    · rw [hps] at hsl
      simp at hsl
    · rw [hps] at hsl
      dsimp only at hsl
      rcases hrest : studentsLoop catalog (catalog.map (·.1)) cfg rest pr.2.1 pr.2.2
        with _ | sl'
      · rw [hrest] at hsl
        simp at hsl
      · rw [hrest] at hsl
        dsimp only at hsl
        obtain rfl := Option.some_inj.mp hsl
        rcases List.mem_cons.mp hp with rfl | hp'
        · exact processStudent_total catalog _ cfg cap r' pr hd hm' hps
        · exact ih pr.2.1 pr.2.2 sl' hrest p hp'

/-- Witness for C9 at a concrete run. -/
theorem scheduler_never_overfills_witness :
    totalEntries [("Day1", [(⟨"Math", 1⟩ : SEntry)])] ≤
      (⟨1, 1, 2, 1⟩ : SConfig).classes_per_student :=
  scheduler_never_overfills [("Day1", [("Math", ⟨1, [1]⟩)])] ⟨1, 1, 2, 1⟩ []
    [("Student1", [("Day1", [⟨"Math", 1⟩])])] (by decide) (by decide) rfl
    ("Student1", [("Day1", [⟨"Math", 1⟩])]) (by simp)

/-! ## Capacity bookkeeping (C2) -/

/-- Number of entries of class `k.2` in the day-`k.1` slot of one student. -/
def cnt (dm : DayMap) (k : String × String) : Nat :=
  ((aget dm k.1 []).filter (fun e => e.className == k.2)).length

/-- Number of assignments of (day, class) `k` across all students. -/
def countDC (s : List (String × DayMap)) (k : String × String) : Nat :=
  s.foldr (fun p a => cnt p.2 k + a) 0

/-- The conservation relation between two scheduler states: for every
(day, class) key the tracker value plus the assignment count is unchanged,
and a nonnegative tracker value stays nonnegative. -/
def Conserve (dm dm' : DayMap) (cap cap' : CapMap) : Prop :=
  ∀ k, cap' k + (cnt dm' k : ℤ) = cap k + (cnt dm k : ℤ)
    ∧ (0 ≤ cap k → 0 ≤ cap' k)

/-- Conservation is reflexive. -/
theorem conserve_refl (dm : DayMap) (cap : CapMap) : Conserve dm dm cap cap :=
  fun _ => ⟨rfl, id⟩

/-- Conservation composes. -/
theorem conserve_trans {d1 d2 d3 : DayMap} {c1 c2 c3 : CapMap}
    (h1 : Conserve d1 d2 c1 c2) (h2 : Conserve d2 d3 c2 c3) :
    Conserve d1 d3 c1 c3 := by
  intro k
  obtain ⟨e1, n1⟩ := h1 k
  obtain ⟨e2, n2⟩ := h2 k
  exact ⟨by omega, fun h0 => n2 (n1 h0)⟩

/-- Appending to a present day changes exactly the appended key's count. -/
theorem cnt_dmAppend_mem (dm : DayMap) (day : String) (e : SEntry)
    (h : day ∈ dm.map (·.1)) (k : String × String) :
    cnt (dmAppend dm day e) k =
      cnt dm k + (if k.1 = day ∧ e.className = k.2 then 1 else 0) := by
  by_cases hk1 : k.1 = day
  · unfold cnt
    rw [hk1, aget_dmAppend dm day e h, List.filter_append]
    by_cases hcn : e.className = k.2
    · rw [if_pos ⟨rfl, hcn⟩]
      rw [List.filter_cons]
      rw [if_pos (by simpa using hcn)]
      simp
    · rw [if_neg (fun hh => hcn hh.2)]
      rw [List.filter_cons]
      rw [if_neg (by simpa using hcn)]
      simp
  · unfold cnt
    rw [aget_dmAppend_ne dm day e k.1 hk1]
    rw [if_neg (fun hh => hk1 hh.1)]
    omega

/-- A guarded assignment (positive remaining capacity) preserves
conservation. -/
theorem conserve_assign (dm : DayMap) (day cls : String) (p : Int)
    (cap : CapMap) (hkey : day ∈ dm.map (·.1)) (hcap : ¬ cap (day, cls) ≤ 0) :
    Conserve dm (dmAppend dm day ⟨cls, p⟩) cap
      (cupd cap (day, cls) (cap (day, cls) - 1)) := by
  intro k
  have hcnt := cnt_dmAppend_mem dm day ⟨cls, p⟩ hkey k
  constructor
  · by_cases hk : k = (day, cls)
    · subst hk
      have hcu : cupd cap (day, cls) (cap (day, cls) - 1) (day, cls)
          = cap (day, cls) - 1 := by
        unfold cupd
        rw [if_pos rfl]
      rw [hcnt, if_pos ⟨rfl, rfl⟩, hcu]
      push_cast
      omega
    · have hni : ¬ (k.1 = day ∧ (⟨cls, p⟩ : SEntry).className = k.2) := by
        intro hh
        exact hk (Prod.ext hh.1 hh.2.symm)
      rw [hcnt, if_neg hni]
      have hcu : cupd cap (day, cls) (cap (day, cls) - 1) k = cap k := by
        unfold cupd
        rw [if_neg hk]
      rw [hcu]
      simp
  · intro h0
    by_cases hk : k = (day, cls)
    · subst hk
      show 0 ≤ cupd cap (day, cls) (cap (day, cls) - 1) (day, cls)
      unfold cupd
      rw [if_pos rfl]
      omega
    · show 0 ≤ cupd cap (day, cls) (cap (day, cls) - 1) k
      unfold cupd
      rw [if_neg hk]
      exact h0

/-- The per-day scan preserves conservation. -/
theorem scanClasses_conserve (dayClasses : List (String × SClassInfo))
    (day : String) (target : Nat) (shuffled : List String) (dm : DayMap)
    (assigned : List String) (cap : CapMap) (r : List Nat)
    (hkey : day ∈ dm.map (·.1)) :
    Conserve dm (scanClasses dayClasses day target shuffled dm assigned cap r).1
      cap (scanClasses dayClasses day target shuffled dm assigned cap r).2.2.1 := by
  induction shuffled generalizing dm assigned cap r with
  | nil => exact conserve_refl dm cap
  | cons cls rest ih =>
    rw [scanClasses]
    by_cases h1 : (aget dm day []).length ≥ target
    · rw [if_pos h1]
      exact conserve_refl dm cap
    · rw [if_neg h1]
      by_cases h2 : assigned.contains cls = true
      · rw [if_pos h2]
        exact ih _ _ _ _ hkey
      · rw [if_neg h2]
        by_cases h3 : cap (day, cls) ≤ 0
        · rw [if_pos h3]
          exact ih _ _ _ _ hkey
        · rw [if_neg h3]
          rcases hfind : dayClasses.find? (fun q => q.1 == cls) with _ | q
          · simp only [hfind]
            exact ih _ _ _ _ hkey
          · simp only [hfind]
            try dsimp only
            rcases hfil : q.2.periods.filter
                (fun p => !((aget dm day []).map (·.period)).contains p) with _ | ⟨a, as⟩
            · simp only [hfil]
              exact ih _ _ _ _ hkey
            · simp only [hfil]
              try dsimp only
              exact conserve_trans (conserve_assign dm day cls _ cap hkey h3)
                (ih _ _ _ _ ((dmAppend_keys dm day _).symm ▸ hkey))

/-- The day loop preserves conservation. -/
theorem daysLoop_conserve (catalog : SCatalog) (targets : List (String × Nat))
    (days : List String) (dm : DayMap) (assigned : List String) (cap : CapMap)
    (r : List Nat) (hkeys : ∀ d ∈ days, d ∈ dm.map (·.1)) :
    Conserve dm (daysLoop catalog targets days dm assigned cap r).1
      cap (daysLoop catalog targets days dm assigned cap r).2.2.1 := by
  induction days generalizing dm assigned cap r with
  | nil => exact conserve_refl dm cap
  | cons day rest ih =>
    rw [daysLoop]
    rcases hfd : catalog.find? (fun p => p.1 == day) with _ | pd
    · simp only [hfd]
      exact ih _ _ _ _ (fun d hd => hkeys d (List.mem_cons_of_mem _ hd))
    · simp only [hfd]
      try dsimp only
      refine conserve_trans (scanClasses_conserve pd.2 day (aget targets day 0)
        (rshuffle (pd.2.map (·.1)) r).1 dm assigned cap (rshuffle (pd.2.map (·.1)) r).2
        (hkeys day (List.mem_cons_self _ _))) (ih _ _ _ _ ?_)
      intro d hd
      rw [scanClasses_keys]
      exact hkeys d (List.mem_cons_of_mem _ hd)

/-- A successful fallback assignment preserves conservation. -/
theorem fillScanClasses_conserve (dayClasses : List (String × SClassInfo))
    (day : String) (pool : List String) (dm : DayMap) (assigned : List String)
    (cap : CapMap) (r : List Nat) (st : DayMap × List String × CapMap × List Nat)
    (hsome : fillScanClasses dayClasses day pool dm assigned cap r = some st)
    (hkey : day ∈ dm.map (·.1)) :
    Conserve dm st.1 cap st.2.2.1 := by
  induction pool generalizing dm assigned cap r with
  | nil => simp [fillScanClasses] at hsome
  | cons cls rest ih =>
    rw [fillScanClasses] at hsome
    by_cases h2 : assigned.contains cls = true
    · rw [if_pos h2] at hsome
      exact ih _ _ _ _ hsome hkey
    · rw [if_neg h2] at hsome
      by_cases h3 : cap (day, cls) ≤ 0
      · rw [if_pos h3] at hsome
        exact ih _ _ _ _ hsome hkey
      · rw [if_neg h3] at hsome
        rcases hfind : dayClasses.find? (fun q => q.1 == cls) with _ | q
        · simp only [hfind] at hsome
          exact ih _ _ _ _ hsome hkey
        · simp only [hfind] at hsome
          rcases hfil : q.2.periods.filter
              (fun p => !((aget dm day []).map (·.period)).contains p) with _ | ⟨a, as⟩
          · simp only [hfil] at hsome
            exact ih _ _ _ _ hsome hkey
          · simp only [hfil] at hsome
            obtain rfl := Option.some_inj.mp hsome
            exact conserve_assign dm day cls _ cap hkey h3

/-- A successful fallback sweep preserves conservation. -/
theorem fillScanDays_conserve (catalog : SCatalog) (cps total : Nat)
    (days : List String) (dm : DayMap) (assigned : List String) (cap : CapMap)
    (r : List Nat) (st : DayMap × List String × CapMap × List Nat)
    (hsome : fillScanDays catalog cps total days dm assigned cap r = some st)
    (hkeys : ∀ d ∈ days, d ∈ dm.map (·.1)) :
    Conserve dm st.1 cap st.2.2.1 := by
  induction days generalizing dm assigned cap r with
  | nil => simp [fillScanDays] at hsome
  | cons day rest ih =>
    rw [fillScanDays] at hsome
    rcases hfd : catalog.find? (fun p => p.1 == day) with _ | pd
    · simp only [hfd] at hsome
      exact ih _ _ _ _ hsome (fun d hd => hkeys d (List.mem_cons_of_mem _ hd))
    · simp only [hfd] at hsome
      by_cases htot : total ≥ cps
      · rw [if_pos htot] at hsome
        simp at hsome
      · rw [if_neg htot] at hsome
        rcases hfs : fillScanClasses pd.2 day (pd.2.map (·.1)) dm assigned cap r
          with _ | st'
        · simp only [hfs] at hsome
          exact ih _ _ _ _ hsome (fun d hd => hkeys d (List.mem_cons_of_mem _ hd))
        · simp only [hfs] at hsome
          obtain rfl := Option.some_inj.mp hsome
          exact fillScanClasses_conserve _ _ _ _ _ _ _ _ hfs
            (hkeys day (List.mem_cons_self _ _))

/-- The fallback loop preserves conservation. -/
theorem fillLoop_conserve (catalog : SCatalog) (days : List String)
    (cps fuel total : Nat) (dm : DayMap) (assigned : List String) (cap : CapMap)
    (r : List Nat) (hkeys : dm.map (·.1) = days) :
    Conserve dm (fillLoop catalog days cps fuel total dm assigned cap r).1
      cap (fillLoop catalog days cps fuel total dm assigned cap r).2.2.1 := by
  induction fuel generalizing total dm assigned cap r with
  | zero => exact conserve_refl dm cap
  | succ fuel ih =>
    rw [fillLoop]
    by_cases hlt : total < cps
    · rw [if_pos hlt]
      rcases hfs : fillScanDays catalog cps total days dm assigned cap r with _ | st
      · exact conserve_refl dm cap
      · try dsimp only
        refine conserve_trans
          (fillScanDays_conserve _ _ _ _ _ _ _ _ _ hfs (fun d hd => hkeys ▸ hd))
          (ih _ _ _ _ _ ?_)
        rw [fillScanDays_keys _ _ _ _ _ _ _ _ _ hfs, hkeys]
    · rw [if_neg hlt]
      exact conserve_refl dm cap

/-- The freshly initialized day map has zero counts. -/
theorem cnt_init (days : List String) (k : String × String) :
    cnt (days.map (fun d => (d, []))) k = 0 := by
  unfold cnt
  rw [aget_init]
  rfl

/-- Processing one student decrements the tracker by exactly the student's
per-key assignment counts, never below zero. -/
theorem processStudent_conserve (catalog : SCatalog) (days : List String)
    (cfg : SConfig) (cap : CapMap) (r : List Nat)
    (st : DayMap × CapMap × List Nat)
    (hps : processStudent catalog days cfg cap r = some st) :
    ∀ k, st.2.1 k + (cnt st.1 k : ℤ) = cap k ∧ (0 ≤ cap k → 0 ≤ st.2.1 k) := by
  unfold processStudent at hps
  rcases hT : dayTargets days cfg r with _ | tr
  · rw [hT] at hps
    simp at hps
  · rw [hT] at hps
    dsimp only at hps
    obtain rfl := Option.some_inj.mp hps
    have hkeys0 : (days.map (fun d => (d, ([] : List SEntry)))).map (·.1) = days := by
      simp [Function.comp_def]
    have h1 := daysLoop_conserve catalog tr.1 days
      (days.map (fun d => (d, []))) [] cap tr.2 (fun d hd => by rw [hkeys0]; exact hd)
    have h2 := fillLoop_conserve catalog days cfg.classes_per_student
      cfg.classes_per_student
      (days.foldr (fun d a => (aget (daysLoop catalog tr.1 days
        (days.map (fun d => (d, []))) [] cap tr.2).1 d []).length + a) 0)
      (daysLoop catalog tr.1 days (days.map (fun d => (d, []))) [] cap tr.2).1
      (daysLoop catalog tr.1 days (days.map (fun d => (d, []))) [] cap tr.2).2.1
      (daysLoop catalog tr.1 days (days.map (fun d => (d, []))) [] cap tr.2).2.2.1
      (daysLoop catalog tr.1 days (days.map (fun d => (d, []))) [] cap tr.2).2.2.2
      (by rw [daysLoop_keys]; exact hkeys0)
    intro k
    obtain ⟨e1, n1⟩ := conserve_trans h1 h2 k
    rw [cnt_init] at e1
    exact ⟨by push_cast at e1 ⊢; omega, n1⟩

/-- The student loop decrements the tracker by exactly the allocation's
per-key assignment counts, never below zero. -/
theorem studentsLoop_conserve (catalog : SCatalog) (days : List String)
    (cfg : SConfig) :
    ∀ (students : List String) (cap : CapMap) (r : List Nat)
      (sl : List (String × DayMap) × CapMap),
      studentsLoop catalog days cfg students cap r = some sl →
      ∀ k, sl.2 k + (countDC sl.1 k : ℤ) = cap k ∧ (0 ≤ cap k → 0 ≤ sl.2 k) := by
  intro students
  induction students with
  | nil =>
    intro cap r sl hsl k
    obtain rfl := Option.some_inj.mp hsl
    exact ⟨by show cap k + ((0 : Nat) : ℤ) = cap k; simp, id⟩
  | cons stu rest ih =>
    intro cap r sl hsl k
    rw [studentsLoop] at hsl
    rcases hps : processStudent catalog days cfg cap r with _ | pr
    · rw [hps] at hsl
      simp at hsl
    · rw [hps] at hsl
      dsimp only at hsl
      rcases hrest : studentsLoop catalog days cfg rest pr.2.1 pr.2.2 with _ | sl'
      · rw [hrest] at hsl
        simp at hsl
      · rw [hrest] at hsl
        dsimp only at hsl
        obtain rfl := Option.some_inj.mp hsl
        obtain ⟨e1, n1⟩ := processStudent_conserve catalog days cfg cap r pr hps k
        obtain ⟨e2, n2⟩ := ih pr.2.1 pr.2.2 sl' hrest k
        constructor
        · show sl'.2 k + (countDC ((stu, pr.1) :: sl'.1) k : ℤ) = cap k
          have hcd : countDC ((stu, pr.1) :: sl'.1) k = cnt pr.1 k + countDC sl'.1 k := rfl
          rw [hcd]
          push_cast
          omega
        · exact fun h0 => n2 (n1 h0)

/-- Keys of other days are untouched by one day's tracker initialization. -/
theorem capInitInner_untouched (dayCs : List (String × SClassInfo)) (d : String)
    (cap0 : CapMap) (k : String × String) (h : k.1 ≠ d) :
    (dayCs.foldl (fun cap2 q => cupd cap2 (d, q.1) q.2.capacity) cap0) k = cap0 k := by
  induction dayCs generalizing cap0 with
  | nil => rfl
  | cons q rest ih =>
    rw [List.foldl_cons, ih]
    unfold cupd
    rw [if_neg (fun hh => h (by rw [hh]))]

/-- Classes not in a day's list are untouched by that day's tracker
initialization. -/
theorem capInitInner_untouched_cls (dayCs : List (String × SClassInfo))
    (d cls : String) (cap0 : CapMap) (h : cls ∉ dayCs.map (·.1)) :
    (dayCs.foldl (fun cap2 q => cupd cap2 (d, q.1) q.2.capacity) cap0) (d, cls)
      = cap0 (d, cls) := by
  induction dayCs generalizing cap0 with
  | nil => rfl
  | cons q rest ih =>
    rw [List.map_cons] at h
    rw [List.foldl_cons,
      ih _ (fun hh : cls ∈ rest.map (·.1) => h (List.mem_cons_of_mem _ hh))]
    unfold cupd
    rw [if_neg]
    intro hh
    exact h (List.mem_cons.mpr (Or.inl (congrArg Prod.snd hh)))

/-- One day's tracker initialization stores the found class's capacity when
the day's class keys are distinct. -/
theorem capInitInner_eq (dayCs : List (String × SClassInfo)) (d cls : String)
    (qq : String × SClassInfo) (cap0 : CapMap)
    (hnd : (dayCs.map (·.1)).Nodup)
    (hfind : dayCs.find? (fun q => q.1 == cls) = some qq) :
    (dayCs.foldl (fun cap2 q => cupd cap2 (d, q.1) q.2.capacity) cap0) (d, cls)
      = qq.2.capacity := by
  induction dayCs generalizing cap0 with
  | nil => simp at hfind
  | cons q rest ih =>
    rw [List.find?_cons] at hfind
    by_cases hq : (q.1 == cls) = true
    · rw [hq] at hfind
      obtain rfl := Option.some_inj.mp hfind
      have hcls : q.1 = cls := by simpa using hq
      rw [List.foldl_cons]
      rw [capInitInner_untouched_cls rest d cls _
        (fun hh => (List.nodup_cons.mp (by rw [List.map_cons] at hnd; exact hnd)).1
          (hcls ▸ hh))]
      unfold cupd
      rw [if_pos (by rw [hcls])]
    · rw [Bool.not_eq_true] at hq
      rw [hq] at hfind
      rw [List.foldl_cons]
      exact ih _ (by rw [List.map_cons] at hnd; exact (List.nodup_cons.mp hnd).2) hfind

/-- Days not in the catalog's remaining part are untouched by its tracker
initialization. -/
theorem capInitOuter_untouched (catalog : SCatalog) (cap0 : CapMap)
    (k : String × String) (h : k.1 ∉ catalog.map (·.1)) :
    (catalog.foldl (fun cap p =>
        p.2.foldl (fun cap2 q => cupd cap2 (p.1, q.1) q.2.capacity) cap) cap0) k
      = cap0 k := by
  induction catalog generalizing cap0 with
  | nil => rfl
  | cons p rest ih =>
    rw [List.map_cons] at h
    rw [List.foldl_cons, ih _ (fun hh => h (List.mem_cons_of_mem _ hh))]
    exact capInitInner_untouched p.2 p.1 cap0 k
      (fun hh => h (List.mem_cons.mpr (Or.inl hh)))

/-- Lookup on a cons cell with a different day key reduces to the tail. -/
theorem catLookup_cons_ne (p : String × List (String × SClassInfo))
    (rest : SCatalog) (day cls : String) (hp : (p.1 == day) = false) :
    catLookup (p :: rest) day cls = catLookup rest day cls := by
  unfold catLookup
  rw [List.find?_cons, hp]

/-- Tracker initialization from any starting map stores the catalog capacity
of every key the catalog defines, when day and class keys are distinct. -/
theorem capInitGo_eq (catalog : SCatalog) :
    ∀ (cap0 : CapMap) (day cls : String) (info : SClassInfo),
      (catalog.map (·.1)).Nodup →
      (∀ p ∈ catalog, (p.2.map (·.1)).Nodup) →
      catLookup catalog day cls = some info →
      (catalog.foldl (fun cap p =>
          p.2.foldl (fun cap2 q => cupd cap2 (p.1, q.1) q.2.capacity) cap) cap0)
        (day, cls) = info.capacity := by
  induction catalog with
  | nil =>
    intro cap0 day cls info _ _ hlk
    simp [catLookup] at hlk
  | cons p rest ih =>
    intro cap0 day cls info hd hc hlk
    by_cases hp : (p.1 == day) = true
    · have hpd : p.1 = day := by simpa using hp
      have hfind : ∃ qq, p.2.find? (fun q => q.1 == cls) = some qq ∧ qq.2 = info := by
        unfold catLookup at hlk
        rw [List.find?_cons, hp] at hlk
        dsimp only at hlk
        rcases hfq : p.2.find? (fun q => q.1 == cls) with _ | qq
        · rw [hfq] at hlk
          simp at hlk
        · rw [hfq] at hlk
          exact ⟨qq, hfq, by simpa using hlk⟩
      obtain ⟨qq, hfq, hqq⟩ := hfind
      rw [List.foldl_cons]
      have hnotin : day ∉ rest.map (·.1) := by
        rw [List.map_cons] at hd
        intro hh
        exact (List.nodup_cons.mp hd).1 (by rw [hpd]; exact hh)
      rw [capInitOuter_untouched rest _ _ hnotin]
      rw [← hqq, ← hpd]
      exact capInitInner_eq p.2 p.1 cls qq cap0 (hc p (List.mem_cons_self _ _)) hfq
    · have hlk' : catLookup rest day cls = some info := by
        rw [catLookup_cons_ne p rest day cls (by simpa using hp)] at hlk
        exact hlk
      rw [List.foldl_cons]
      exact ih _ day cls info (by rw [List.map_cons] at hd; exact (List.nodup_cons.mp hd).2)
        (fun q hq => hc q (List.mem_cons_of_mem _ hq)) hlk'

/-- The initialized tracker holds exactly the catalog capacity of every key
the catalog defines, when day and class keys are distinct. -/
theorem capInit_eq (catalog : SCatalog) (day cls : String) (info : SClassInfo)
    (hd : (catalog.map (·.1)).Nodup)
    (hc : ∀ p ∈ catalog, (p.2.map (·.1)).Nodup)
    (hlk : catLookup catalog day cls = some info) :
    capInit catalog (day, cls) = info.capacity :=
  capInitGo_eq catalog (fun _ => 0) day cls info hd hc hlk

/-- C2: the capacity tracker is initialized to the catalog capacity, is only
ever decremented, and never becomes negative; equivalently, in the returned
allocation the number of assignments of each (day, offering) across all
students never exceeds that offering's declared capacity.  Stated for every
run over a catalog with distinct day and class keys (a Python dict cannot
hold duplicate keys) and nonnegative declared capacity. -/
theorem scheduler_respects_capacity (catalog : SCatalog) (cfg : SConfig)
    (r : List Nat) (s : List (String × DayMap)) (capF : CapMap)
    (hd : (catalog.map (·.1)).Nodup)
    (hc : ∀ p ∈ catalog, (p.2.map (·.1)).Nodup)
    (h : useFull catalog cfg r = some (s, capF))
    (day cls : String) (info : SClassInfo)
    (hlk : catLookup catalog day cls = some info) (hcap : 0 ≤ info.capacity) :
    (countDC s (day, cls) : ℤ) ≤ info.capacity
    ∧ capF (day, cls) = info.capacity - (countDC s (day, cls) : ℤ)
    ∧ 0 ≤ capF (day, cls) := by
  have h' : studentsLoop catalog (catalog.map (·.1)) cfg
      ((List.range cfg.num_students).map (fun i => "Student" ++ toString (i + 1)))
      (capInit catalog) r = some (s, capF) := h
  obtain ⟨e1, n1⟩ := studentsLoop_conserve catalog (catalog.map (·.1)) cfg
    ((List.range cfg.num_students).map (fun i => "Student" ++ toString (i + 1)))
    (capInit catalog) r (s, capF) h' (day, cls)
  dsimp only at e1 n1
  rw [capInit_eq catalog day cls info hd hc hlk] at e1 n1
  have hF : 0 ≤ capF (day, cls) := n1 hcap
  refine ⟨by omega, by omega, hF⟩

/-- Witness for C2 at a concrete run. -/
theorem scheduler_respects_capacity_witness :
    ((countDC [("Student1", [("Day1", [⟨"Math", 1⟩])])] ("Day1", "Math") : ℤ)
        ≤ (⟨1, [1]⟩ : SClassInfo).capacity)
    ∧ (useFull [("Day1", [("Math", ⟨1, [1]⟩)])] ⟨1, 1, 2, 1⟩ []).isSome = true := by
  constructor
  · exact (scheduler_respects_capacity [("Day1", [("Math", ⟨1, [1]⟩)])] ⟨1, 1, 2, 1⟩
      [] [("Student1", [("Day1", [⟨"Math", 1⟩])])]
      (cupd (capInit [("Day1", [("Math", ⟨1, [1]⟩)])]) ("Day1", "Math")
        (capInit [("Day1", [("Math", ⟨1, [1]⟩)])] ("Day1", "Math") - 1))
      (by decide) (by decide) rfl "Day1" "Math" ⟨1, [1]⟩ rfl (by decide)).1
  · rfl

end FinalProject
